import Mathlib

/-!
Verification of the serq compiler front end (lexer, keyword recognizer,
span/position diagnostics, and the Pratt expression parser).

The Rust sources are shallowly embedded: source text is a `List Char`,
byte offsets are `Nat` (the Rust code uses `u32`/`usize` offsets; all
offsets produced are bounded by the source byte length, see the
construction-bound theorems), fallible operations return `Option`/`Except`,
and every Rust panic (`unwrap`, `unimplemented!`, `panic!`) is modelled as
an explicit error value.  Loops are embedded as structural recursions on
the remaining character list; the token stream is produced with an explicit
fuel argument together with a progress lemma showing the fuel chosen is
always sufficient.
-/

namespace Serq

/-! ## Spans (src/diagnostic/span.rs)

`SourceSpan` is a half-open byte range `[start, stop)`.  The Rust struct
stores two `u32` offsets; we use `Nat`. -/

/-- Embeds `SourceSpan` from `src/diagnostic/span.rs` (field `end` is
renamed `stop`: `end` is reserved in Lean). -/
structure SourceSpan where
  start : Nat
  stop : Nat
deriving DecidableEq, Repr

/-- The UTF-8 byte length of a character sequence; models Rust
`str::len` on the string holding those characters. -/
def utf8Len (cs : List Char) : Nat := (cs.map Char.utf8Size).sum

/-! ## Token model (src/lexer/token.rs) -/

/-- Embeds `TokenKind` from `src/lexer/token.rs`, one constructor per
Rust variant, in source order. -/
inductive TokenKind where
  | LeftParen | RightParen | LeftBrace | RightBrace | LeftBracket | RightBracket
  | Plus | Minus | Star | Slash | Percent | And | Or | Caret | Shl | Shr
  | PlusEq | MinusEq | StarEq | SlashEq | PercentEq | AndEq | OrEq | CaretEq
  | ShlEq | ShrEq | AndAnd | OrOr | PlusPlus | MinusMinus
  | Lt | Gt | Eq | Bang | EqEq | BangEq | LtEq | GtEq
  | Tilde | Dot | Colon | Comma | Semicolon
  | Identifier | String | Number | Comment
  | Break | Const | Continue | Else | Enum | False | For | Fn | If
  | Let | Mut | Pub | Return | True | While
  | Error | Eof
deriving DecidableEq, Repr

/-- Embeds `Token` from `src/lexer/token.rs`: a kind plus the span it
covers. -/
structure Token where
  kind : TokenKind
  span : SourceSpan
deriving DecidableEq, Repr

/-! ## Keyword recognizer (src/lexer/keywords.rs) -/

/-- `MAX_KEYWORD_LEN` from `src/lexer/keywords.rs`. -/
def MAX_KEYWORD_LEN : Nat := 8

/-- Embeds the `const fn kw`: an ASCII keyword padded with zero bytes to
a fixed `MAX_KEYWORD_LEN`-byte buffer. -/
def kw (s : List Char) : List Nat :=
  (s.map Char.toNat) ++ List.replicate (MAX_KEYWORD_LEN - s.length) 0

/-- Embeds the inner `match_kw` helper of `check_keyword`: full
fixed-width buffer equality before a keyword tag is returned. -/
def match_kw (buf pred : List Nat) (token : TokenKind) : TokenKind :=
  if buf = pred then token else TokenKind.Identifier

/-- Embeds `check_keyword` from `src/lexer/keywords.rs`: the hand-crafted
trie dispatching on `buf[0]` (and a disambiguating byte), with the match
arms in source order.  Note that the `b'f' if buf[1] == b'n'` arm returns
`Fn` directly without a `match_kw` equality check, exactly as the source
does. -/
def check_keyword (buf : List Nat) : TokenKind :=
  let b0 := buf.getD 0 0
  let b1 := buf.getD 1 0
  let b3 := buf.getD 3 0
  if b0 = 'b'.toNat then match_kw buf (kw "break".toList) .Break
  else if b0 = 'c'.toNat ∧ b3 = 's'.toNat then match_kw buf (kw "const".toList) .Const
  else if b0 = 'c'.toNat ∧ b3 = 't'.toNat then match_kw buf (kw "continue".toList) .Continue
  else if b0 = 'e'.toNat ∧ b1 = 'l'.toNat then match_kw buf (kw "else".toList) .Else
  else if b0 = 'e'.toNat ∧ b1 = 'n'.toNat then match_kw buf (kw "enum".toList) .Enum
  else if b0 = 'f'.toNat ∧ b1 = 'a'.toNat then match_kw buf (kw "false".toList) .False
  else if b0 = 'f'.toNat ∧ b1 = 'n'.toNat then TokenKind.Fn
  else if b0 = 'f'.toNat ∧ b1 = 'o'.toNat then match_kw buf (kw "for".toList) .For
  else if b0 = 'i'.toNat then match_kw buf (kw "if".toList) .If
  else if b0 = 'l'.toNat then match_kw buf (kw "let".toList) .Let
  else if b0 = 'm'.toNat then match_kw buf (kw "mut".toList) .Mut
  else if b0 = 'p'.toNat then match_kw buf (kw "pub".toList) .Pub
  else if b0 = 'r'.toNat then match_kw buf (kw "return".toList) .Return
  else if b0 = 't'.toNat then match_kw buf (kw "true".toList) .True
  else if b0 = 'w'.toNat then match_kw buf (kw "while".toList) .While
  else TokenKind.Identifier

/-! ## Character classes

`char::is_whitespace` (Unicode `White_Space`), `char::is_ascii_lowercase`
and `char::is_ascii_digit` are Rust standard-library predicates; they are
embedded by their exact definitions.  The `unicode_ident` crate's
`is_xid_start` / `is_xid_continue` are external table-driven predicates:
the lexer is parameterized over them, so every universal theorem below
holds for *any* choice of the two tables; concrete example evaluations
instantiate them with their ASCII restriction (on which `unicode_ident`
agrees: ASCII letters are XID_Start, ASCII alphanumerics and `_` are
XID_Continue). -/

/-- Unicode `White_Space`, the exact 25-codepoint set used by Rust's
`char::is_whitespace`. -/
def rustIsWhitespace (c : Char) : Bool :=
  let n := c.toNat
  (9 ≤ n ∧ n ≤ 13) ∨ n = 32 ∨ n = 0x85 ∨ n = 0xA0 ∨ n = 0x1680 ∨
    (0x2000 ≤ n ∧ n ≤ 0x200A) ∨ n = 0x2028 ∨ n = 0x2029 ∨ n = 0x202F ∨
    n = 0x205F ∨ n = 0x3000

/-- Rust `char::is_ascii_lowercase`. -/
def rustIsAsciiLower (c : Char) : Bool := 'a' ≤ c ∧ c ≤ 'z'

/-- Rust `char::is_ascii_digit`. -/
def rustIsAsciiDigit (c : Char) : Bool := '0' ≤ c ∧ c ≤ '9'

/-- The two identifier tables of the external `unicode_ident` crate, as a
parameter of the lexer. -/
structure XidTables where
  xidStart : Char → Bool
  xidCont : Char → Bool

/-- The ASCII restriction of `unicode_ident`'s tables, used to evaluate
the lexer on concrete (ASCII) example inputs. -/
def asciiXid : XidTables where
  xidStart c := ('a' ≤ c ∧ c ≤ 'z') ∨ ('A' ≤ c ∧ c ≤ 'Z')
  xidCont c := ('a' ≤ c ∧ c ≤ 'z') ∨ ('A' ≤ c ∧ c ≤ 'Z') ∨ ('0' ≤ c ∧ c ≤ '9') ∨ c = '_'

/-- Embeds `is_ident1` from `src/lexer/mod.rs`: `_` or XID_Start. -/
def is_ident1 (xt : XidTables) (c : Char) : Bool := c = '_' ∨ xt.xidStart c

/-- Embeds `is_ident2` from `src/lexer/mod.rs`: XID_Continue. -/
def is_ident2 (xt : XidTables) (c : Char) : Bool := xt.xidCont c

/-! ## Lexer (src/lexer/mod.rs)

The `Lexer` struct holds a `CharIndices` cursor (remaining characters
plus the byte offset of the next character) and the kind of the most
recently emitted token.  Every Rust loop becomes a structural recursion
over the remaining character list, threading the byte offset, so all
definitions reduce by `decide`/`rfl`. -/

/-- Embeds `should_terminate_expr` from `src/lexer/mod.rs`. -/
def should_terminate_expr (token : TokenKind) : Bool :=
  match token with
  | .RightParen | .RightBrace | .RightBracket
  | .Identifier | .String | .Number
  | .Break | .Continue | .Return
  | .PlusPlus | .MinusMinus => true
  | _ => false

/-- Lexer state: remaining source characters, byte offset of the cursor
(`CharIndices::offset`), and the previously emitted token kind. -/
structure LexState where
  src : List Char
  off : Nat
  prev : TokenKind
deriving DecidableEq, Repr

/-- The loop of `Lexer::line_comment`: discard characters up to (not
including) the next newline. -/
def lineCommentLoop : List Char → Nat → List Char × Nat
  | [], off => ([], off)
  | c :: rest, off =>
    if c = '\n' then (c :: rest, off) else lineCommentLoop rest (off + c.utf8Size)

/-- Embeds `Lexer::line_comment`. -/
def line_comment (src : List Char) (off : Nat) : Token × List Char × Nat :=
  let r := lineCommentLoop src off
  (⟨.Comment, off, r.2⟩, r)

/-- The loop of `Lexer::multi_line_comment`: eat characters until the
cursor sits on a `*/` pair (or input runs out). -/
def mlCommentLoop : List Char → Nat → List Char × Nat
  | [], off => ([], off)
  | c :: rest, off =>
    if c = '*' ∧ rest.head? = some '/' then (c :: rest, off)
    else mlCommentLoop rest (off + c.utf8Size)

/-- Embeds `Lexer::multi_line_comment`: consumes the leading `/*`, scans
for `*/`, and yields `Comment` if the two closing characters were both
available, `Error` otherwise. -/
def multi_line_comment (src : List Char) (off : Nat) : Token × List Char × Nat :=
  -- Consume the `/*` characters at the start (they are present whenever
  -- this is called from `whitespace`).
  let s1 : List Char × Nat :=
    match src with
    | a :: b :: rest => (rest, off + a.utf8Size + b.utf8Size)
    | a :: [] => ([], off + a.utf8Size)
    | [] => ([], off)
  let s2 := mlCommentLoop s1.1 s1.2
  -- `let star = self.consume(); let slash = self.consume();`
  match s2.1 with
  | a :: b :: rest =>
    (⟨.Comment, off, s2.2 + a.utf8Size + b.utf8Size⟩, rest, s2.2 + a.utf8Size + b.utf8Size)
  | a :: [] => (⟨.Error, off, s2.2 + a.utf8Size⟩, [], s2.2 + a.utf8Size)
  | [] => (⟨.Error, off, s2.2⟩, [], s2.2)

/-- The loop of `Lexer::whitespace`: consume whitespace, record a pending
synthetic `Semicolon` when a newline is crossed while the previous token
terminates an expression, and hand off to the comment scanners.  `tok` is
the `token` local of the Rust function. -/
def whitespaceLoop (prev : TokenKind) : List Char → Nat → Option Token →
    Option Token × List Char × Nat
  | [], off, tok => (tok, [], off)
  | c :: rest, off, tok =>
    if c = '\n' then
      let tok' := if should_terminate_expr prev then some ⟨.Semicolon, off, off⟩ else tok
      whitespaceLoop prev rest (off + c.utf8Size) tok'
    else if rustIsWhitespace c then
      whitespaceLoop prev rest (off + c.utf8Size) tok
    else if c = '/' ∧ rest.head? = some '/' then
      let r := line_comment (c :: rest) off
      (some r.1, r.2)
    else if c = '/' ∧ rest.head? = some '*' then
      let r := multi_line_comment (c :: rest) off
      (some r.1, r.2)
    else
      (tok, c :: rest, off)

/-- Embeds `Lexer::whitespace` (the `token` local starts out `None`). -/
def whitespace (s : LexState) : Option Token × List Char × Nat :=
  whitespaceLoop s.prev s.src s.off none

/-- The loop of `Lexer::string`: consume characters of the literal up to
(not including) a closing quote. -/
def stringLoop : List Char → Nat → List Char × Nat
  | [], off => ([], off)
  | c :: rest, off =>
    if c = '"' then (c :: rest, off) else stringLoop rest (off + c.utf8Size)

/-- Embeds `Lexer::string`: after the loop, try to consume the closing
quote; if input ran out the token is `Error`. -/
def stringTail (src : List Char) (off : Nat) : TokenKind × List Char × Nat :=
  let r := stringLoop src off
  match r.1 with
  | c :: rest => (.String, rest, r.2 + c.utf8Size)
  | [] => (.Error, [], r.2)

/-- Embeds `Lexer::number`: consume a run of ASCII digits. -/
def numberLoop : List Char → Nat → List Char × Nat
  | [], off => ([], off)
  | c :: rest, off =>
    if ¬ rustIsAsciiDigit c then (c :: rest, off) else numberLoop rest (off + c.utf8Size)

/-- The loop of `Lexer::name`: consume the identifier, mirroring it into
the fixed keyword buffer (`acc` is the filled prefix, so `acc.length` is
the Rust `cursor`) while keyword candidacy survives. -/
def nameLoop (xt : XidTables) : List Char → Nat → List Nat → Bool →
    List Char × Nat × List Nat × Bool
  | [], off, acc, cand => ([], off, acc, cand)
  | c :: rest, off, acc, cand =>
    if cand ∧ acc.length < MAX_KEYWORD_LEN ∧ rustIsAsciiLower c then
      nameLoop xt rest (off + c.utf8Size) (acc ++ [c.toNat]) cand
    else if is_ident2 xt c then
      nameLoop xt rest (off + c.utf8Size) acc false
    else
      (c :: rest, off, acc, cand)

/-- Embeds `Lexer::name`: scan an identifier starting with `first` (which
has already been consumed) and query the keyword recognizer if keyword
candidacy survived. -/
def name (xt : XidTables) (first : Char) (src : List Char) (off : Nat) :
    TokenKind × List Char × Nat :=
  let cand0 := rustIsAsciiLower first
  let acc0 : List Nat := if cand0 then [first.toNat] else []
  let r := nameLoop xt src off acc0 cand0
  let acc := r.2.2.1
  let kind :=
    if acc.length > 0 ∧ r.2.2.2 then
      check_keyword (acc ++ List.replicate (MAX_KEYWORD_LEN - acc.length) 0)
    else TokenKind.Identifier
  (kind, r.1, r.2.1)

/-- Embeds `Lexer::match1`: one-character lookahead dispatch. -/
def match1 (c : Char) (a b : TokenKind) (src : List Char) (off : Nat) :
    TokenKind × List Char × Nat :=
  match src with
  | x :: rest => if x = c then (a, rest, off + x.utf8Size) else (b, x :: rest, off)
  | [] => (b, [], off)

/-- Embeds `Lexer::match2`: two-alternative one-character lookahead. -/
def match2 (c1 : Char) (a : TokenKind) (c2 : Char) (b : TokenKind) (d : TokenKind)
    (src : List Char) (off : Nat) : TokenKind × List Char × Nat :=
  match src with
  | x :: rest =>
    if x = c1 then (a, rest, off + x.utf8Size)
    else if x = c2 then (b, rest, off + x.utf8Size)
    else (d, x :: rest, off)
  | [] => (d, [], off)

/-- The character dispatch of `Lexer::scan` (its big `match c`), after
the first character `c` has been consumed; `rest1`/`off1` are the cursor
after `c`.  The arms appear in source order. -/
def scanDispatch (xt : XidTables) (c : Char) (rest1 : List Char) (off1 : Nat) :
    TokenKind × List Char × Nat :=
  if is_ident1 xt c then name xt c rest1 off1
  else if rustIsAsciiDigit c then ((.Number, numberLoop rest1 off1) : TokenKind × List Char × Nat)
  else if c = '(' then (.LeftParen, rest1, off1)
  else if c = ')' then (.RightParen, rest1, off1)
  else if c = '{' then (.LeftBrace, rest1, off1)
  else if c = '}' then (.RightBrace, rest1, off1)
  else if c = '[' then (.LeftBracket, rest1, off1)
  else if c = ']' then (.RightBracket, rest1, off1)
  else if c = '+' then match2 '=' .PlusEq '+' .PlusPlus .Plus rest1 off1
  else if c = '-' then match2 '=' .MinusEq '-' .MinusMinus .Minus rest1 off1
  else if c = '*' then match1 '=' .StarEq .Star rest1 off1
  else if c = '/' then match1 '=' .SlashEq .Slash rest1 off1
  else if c = '%' then match1 '=' .PercentEq .Percent rest1 off1
  else if c = '&' then match2 '=' .AndEq '&' .AndAnd .And rest1 off1
  else if c = '|' then match2 '=' .OrEq '|' .OrOr .Or rest1 off1
  else if c = '^' then match1 '=' .CaretEq .Caret rest1 off1
  else if c = '<' then
    -- `try_eat('<')`: peek and consume (the consumed `<` occupies 1 byte)
    if rest1.head? = some '<' then match1 '=' .ShlEq .Shl rest1.tail (off1 + 1)
    else match1 '=' .LtEq .Lt rest1 off1
  else if c = '>' then
    if rest1.head? = some '>' then match1 '=' .ShrEq .Shr rest1.tail (off1 + 1)
    else match1 '=' .GtEq .Gt rest1 off1
  else if c = '=' then match1 '=' .EqEq .Eq rest1 off1
  else if c = '!' then match1 '=' .BangEq .Bang rest1 off1
  else if c = '~' then (.Tilde, rest1, off1)
  else if c = '.' then (.Dot, rest1, off1)
  else if c = ':' then (.Colon, rest1, off1)
  else if c = ',' then (.Comma, rest1, off1)
  else if c = ';' then (.Semicolon, rest1, off1)
  else if c = '"' then stringTail rest1 off1
  else (.Error, rest1, off1)

/-- Embeds `Lexer::scan`: skip whitespace/comments (possibly yielding an
injected token), then dispatch on the next character. -/
def scan (xt : XidTables) (s : LexState) : Token × LexState :=
  match whitespace s with
  | (some t, rest, off) => (t, ⟨rest, off, t.kind⟩)
  | (none, rest, off) =>
    match rest with
    | [] => (⟨.Eof, off, off⟩, ⟨[], off, .Eof⟩)
    | c :: rest1 =>
      let r := scanDispatch xt c rest1 (off + c.utf8Size)
      (⟨r.1, off, r.2.2⟩, ⟨r.2.1, r.2.2, r.1⟩)

/-- The token stream of the `Iterator for Lexer` implementation: keep
scanning while the previously produced token is not `Eof`; the final
`Eof` token itself is yielded.  `fuel` is a termination device; the
progress lemma below shows `src.length + 1` is always enough. -/
def tokensFromFuel (xt : XidTables) : Nat → LexState → List Token
  | 0, _ => []
  | fuel + 1, s =>
    let r := scan xt s
    if r.1.kind = .Eof then [r.1] else r.1 :: tokensFromFuel xt fuel r.2

/-- The full token sequence the `Lexer` yields for a source text (the
`previous` field starts out as `Error`, as in `Lexer::new`). -/
def tokensOf (xt : XidTables) (src : List Char) : List Token :=
  tokensFromFuel xt (src.length + 1) ⟨src, 0, .Error⟩

/-- Embeds `Lexer::new` together with its construction-time assertion
that the source byte length fits in a `u32`; an assertion failure is
modelled as `none`. -/
def lexerNew (src : List Char) : Option LexState :=
  if utf8Len src ≤ 2 ^ 32 - 1 then some ⟨src, 0, .Error⟩ else none

/-- Token stream of an ASCII source given as a string literal. -/
def tokensOfStr (s : String) : List Token := tokensOf asciiXid s.toList

/-! ## Byte slicing (src/diagnostic/span.rs, `SourceSpan::text`)

`SourceSpan::text` delegates to Rust's `str::get(start..end)`, which
yields `Some` exactly when `start <= end`, both offsets are within the
byte length, and both lie on UTF-8 character boundaries.  On a character
list, a byte offset is consumed character by character. -/

/-- Drop the characters occupying the first `n` bytes; `none` when `n`
overruns the text or falls inside a character's UTF-8 encoding. -/
def dropBytes : List Char → Nat → Option (List Char)
  | cs, 0 => some cs
  | [], _ + 1 => none
  | c :: rest, n + 1 =>
    if c.utf8Size ≤ n + 1 then dropBytes rest (n + 1 - c.utf8Size) else none

/-- Take the characters occupying the first `n` bytes; `none` when `n`
overruns the text or falls inside a character's UTF-8 encoding. -/
def takeBytes : List Char → Nat → Option (List Char)
  | _, 0 => some []
  | [], _ + 1 => none
  | c :: rest, n + 1 =>
    if c.utf8Size ≤ n + 1 then (takeBytes rest (n + 1 - c.utf8Size)).map (c :: ·)
    else none

/-- Embeds `SourceSpan::text` (via Rust `str::get` on the byte range
`start..stop`): the spanned substring, or `none` when the range is
backwards, out of bounds, or off a UTF-8 boundary. -/
def spanText (sp : SourceSpan) (input : List Char) : Option (List Char) :=
  if sp.start ≤ sp.stop then
    (dropBytes input sp.start).bind (fun r => takeBytes r (sp.stop - sp.start))
  else none

/-! ## Line/column conversion (src/diagnostic/span.rs,
`SourceLocation::as_line_and_column`) -/

/-- The loop of `as_line_and_column`: walk the text from the start,
bumping the 1-based line/column counters until the byte position reaches
the target offset. -/
def lineColLoop (target : Nat) : Nat → Nat → Nat → List Char → Nat × Nat
  | line, col, _, [] => (line, col)
  | line, col, pos, c :: rest =>
    if target ≤ pos then (line, col)
    else if c = '\n' then lineColLoop target (line + 1) 1 (pos + c.utf8Size) rest
    else lineColLoop target line (col + 1) (pos + c.utf8Size) rest

/-- Embeds `SourceLocation::as_line_and_column`. -/
def as_line_and_column (loc : Nat) (input : List Char) : Nat × Nat :=
  lineColLoop loc 1 1 0 input

/-! ## Number parsing (src/parser/expr.rs, `parse_number`)

`parse_number` calls Rust's `str::parse::<u64>` and `unwrap`s the result;
the `unwrap` panic (in particular on overflow) is modelled as `none`.
The checked accumulation loop of `u64::from_str` is embedded directly:
it fails at the first intermediate value exceeding `u64::MAX`. -/

/-- `u64::MAX`. -/
def u64Max : Nat := 2 ^ 64 - 1

/-- The digit-accumulation loop of `u64::from_str` on an all-digit
string: multiply-add with an overflow check at every step. -/
def parseU64Loop : Nat → List Char → Option Nat
  | acc, [] => some acc
  | acc, c :: rest =>
    if rustIsAsciiDigit c then
      let a := acc * 10 + (c.toNat - '0'.toNat)
      if a ≤ u64Max then parseU64Loop a rest else none
    else none

/-- Rust `str::parse::<u64>` restricted to the digit-run texts that
`Number` tokens carry (the lexer only ever hands such texts over). -/
def parseU64 (cs : List Char) : Option Nat :=
  if cs.isEmpty then none else parseU64Loop 0 cs

/-! ## AST (src/ast/expr/*.rs) -/

/-- Embeds `Literal` from `src/ast/expr/literal.rs`. -/
inductive Literal where
  | Integer (v : Nat)
  | Bool (b : Bool)
deriving DecidableEq, Repr

/-- `ArithmeticLogicalOperator` from `src/ast/expr/operator.rs`. -/
inductive ArithmeticLogicalOperator where
  | Plus | Minus | Multiply | Divide | Modulo | And | Or | Xor | Shl | Shr
deriving DecidableEq, Repr

/-- `ComparisonOperator` from `src/ast/expr/operator.rs`. -/
inductive ComparisonOperator where
  | Eq | NotEq | Lt | Gt | LtEq | GtEq
deriving DecidableEq, Repr

/-- `CompoundAssignmentOperator` from `src/ast/expr/operator.rs`. -/
inductive CompoundAssignmentOperator where
  | Plus | Minus | Multiply | Divide | Modulo | And | Or | Xor | Shl | Shr
deriving DecidableEq, Repr

/-- `BooleanOperator` from `src/ast/expr/operator.rs`. -/
inductive BooleanOperator where
  | And | Or
deriving DecidableEq, Repr

/-- `NegationOperator` from `src/ast/expr/operator.rs`. -/
inductive NegationOperator where
  | Negation | LogicalNot | BitwiseNot
deriving DecidableEq, Repr

mutual
/-- Embeds `Expression` from `src/ast/expr/mod.rs` (the `Ident` variant
stores the identifier's span, as the Rust `Ident` struct does). -/
inductive Expression where
  | Ident (span : SourceSpan)
  | Index (base : Expression) (index : Expression)
  | Call (func : Expression) (params : List Expression)
  | Literal (lit : Literal)
  | Operator (op : OperatorExpr)

/-- Embeds `Operator` from `src/ast/expr/operator.rs` with its eight
sub-kinds. -/
inductive OperatorExpr where
  | ArithmeticLogical (lhs : Expression) (op : ArithmeticLogicalOperator) (rhs : Expression)
  | Comparison (lhs : Expression) (op : ComparisonOperator) (rhs : Expression)
  | CompoundAssignment (lhs : Expression) (op : CompoundAssignmentOperator) (rhs : Expression)
  | Boolean (lhs : Expression) (op : BooleanOperator) (rhs : Expression)
  | Negation (op : NegationOperator) (expr : Expression)
  | Assignment (lhs : Expression) (rhs : Expression)
  | AddressOf (expr : Expression)
  | Dereference (expr : Expression)
end

/-- Embeds `parse_number` from `src/parser/expr.rs`: parse the token's
text as a `u64` and wrap it as an integer literal; the `unwrap` panic on
a failed parse (overflow) is `none`. -/
def parse_number (src : List Char) : Option Expression :=
  (parseU64 src).map (fun v => Expression.Literal (Literal.Integer v))

/-- Embeds `Expression::prefix_operator` from `src/ast/expr/mod.rs`
(total on the five prefix tokens the parser feeds it; the `unreachable!`
arms return the `Negation` default, they are never hit from the parser). -/
def prefixOperator (op : TokenKind) (expr : Expression) : Expression :=
  match op with
  | .Minus => .Operator (.Negation .Negation expr)
  | .Bang => .Operator (.Negation .LogicalNot expr)
  | .Tilde => .Operator (.Negation .BitwiseNot expr)
  | .And => .Operator (.AddressOf expr)
  | _ => .Operator (.Dereference expr)

/-- Embeds `Expression::infix_operator` from `src/ast/expr/mod.rs`: maps
each infix token to the matching operator-family node (the final
`unreachable!` arm is never hit from the parser; it is given an arbitrary
default here). -/
def infixOperator (lhs : Expression) (op : TokenKind) (rhs : Expression) : Expression :=
  match op with
  | .Plus => .Operator (.ArithmeticLogical lhs .Plus rhs)
  | .Minus => .Operator (.ArithmeticLogical lhs .Minus rhs)
  | .Star => .Operator (.ArithmeticLogical lhs .Multiply rhs)
  | .Slash => .Operator (.ArithmeticLogical lhs .Divide rhs)
  | .Percent => .Operator (.ArithmeticLogical lhs .Modulo rhs)
  | .And => .Operator (.ArithmeticLogical lhs .And rhs)
  | .Or => .Operator (.ArithmeticLogical lhs .Or rhs)
  | .Caret => .Operator (.ArithmeticLogical lhs .Xor rhs)
  | .Shl => .Operator (.ArithmeticLogical lhs .Shl rhs)
  | .Shr => .Operator (.ArithmeticLogical lhs .Shr rhs)
  | .EqEq => .Operator (.Comparison lhs .Eq rhs)
  | .BangEq => .Operator (.Comparison lhs .NotEq rhs)
  | .Lt => .Operator (.Comparison lhs .Lt rhs)
  | .LtEq => .Operator (.Comparison lhs .LtEq rhs)
  | .Gt => .Operator (.Comparison lhs .Gt rhs)
  | .GtEq => .Operator (.Comparison lhs .GtEq rhs)
  | .Eq => .Operator (.Assignment lhs rhs)
  | .AndAnd => .Operator (.Boolean lhs .And rhs)
  | .OrOr => .Operator (.Boolean lhs .Or rhs)
  | .PlusEq => .Operator (.CompoundAssignment lhs .Plus rhs)
  | .MinusEq => .Operator (.CompoundAssignment lhs .Minus rhs)
  | .StarEq => .Operator (.CompoundAssignment lhs .Multiply rhs)
  | .SlashEq => .Operator (.CompoundAssignment lhs .Divide rhs)
  | .PercentEq => .Operator (.CompoundAssignment lhs .Modulo rhs)
  | .ShlEq => .Operator (.CompoundAssignment lhs .Shl rhs)
  | .ShrEq => .Operator (.CompoundAssignment lhs .Shr rhs)
  | .AndEq => .Operator (.CompoundAssignment lhs .And rhs)
  | .OrEq => .Operator (.CompoundAssignment lhs .Or rhs)
  | .CaretEq => .Operator (.CompoundAssignment lhs .Xor rhs)
  | _ => .Operator (.Assignment lhs rhs)

/-! ## Parser (src/parser/mod.rs and src/parser/expr.rs)

The parser state is the source text plus the (already materialized)
token list wrapped with one token of lookahead.  Every panic path is a
distinct error value.  Recursion is fueled; each call layer consumes one
fuel unit, and concrete claims are evaluated with ample fuel. -/

/-- The panic/abort conditions of the parser, each modelling one Rust
panic site. -/
inductive PErr where
  /-- `self.next().unwrap()` on an exhausted stream. -/
  | nextNone
  /-- `self.text(span)` on an invalid span (`str` index panic). -/
  | badSpan
  /-- `parse_number`'s `unwrap` on a failed `u64` parse (overflow). -/
  | numberPanic
  /-- The `_ => unimplemented!()` primary arm (identifiers, strings, …). -/
  | unimplementedPrimary
  /-- The `op => panic!("{op:?}")` arm of the operator loop. -/
  | syntaxError (op : TokenKind)
  /-- `eat`/`expect` of a required token that was not there. -/
  | unexpectedToken (expected actual : TokenKind)
  /-- Out of fuel (never hit at the fuel bounds used below). -/
  | fuelOut
deriving DecidableEq, Repr

/-- Parser state: `Parser { source, lexer }` with the token stream
materialized. -/
structure PState where
  source : List Char
  toks : List Token
deriving Repr

/-- Embeds `Parser::peek`: the next token's kind, or `Eof` when the
stream is exhausted. -/
def peekKind (p : PState) : TokenKind :=
  match p.toks with
  | t :: _ => t.kind
  | [] => .Eof

/-- Drop the lookahead token (the state change of `Parser::next`). -/
def advance (p : PState) : PState := ⟨p.source, p.toks.tail⟩

/-- Embeds `Parser::eat` (called `expect` at the expression call sites):
consume the required token or fail with the unexpected-token panic. -/
def expect (k : TokenKind) (p : PState) : Except PErr PState :=
  if peekKind p = k then .ok (advance p) else .error (.unexpectedToken k (peekKind p))

/-- The operator tokens admitted by the `match self.peek()` arm at the
top of the `expression_` loop (everything else except `Semicolon` hits
the `panic!`). -/
def loopOpAllowed (op : TokenKind) : Bool :=
  match op with
  | .Plus | .Minus | .Star | .Slash | .Percent | .Shl | .Shr | .And | .Or | .Caret
  | .EqEq | .BangEq | .Lt | .LtEq | .Gt | .GtEq | .AndAnd | .OrOr | .Eq | .PlusEq
  | .MinusEq | .StarEq | .SlashEq | .PercentEq | .ShlEq | .ShrEq | .AndEq | .OrEq
  | .CaretEq | .LeftBracket | .LeftParen | .RightParen | .RightBracket => true
  | _ => false

/-- Embeds `postfix_binding_power` from `src/parser/expr.rs`. -/
def postfixBindingPower (op : TokenKind) : Option Nat :=
  match op with
  | .LeftBracket | .LeftParen => some 25
  | _ => none

/-- Embeds `infix_binding_power` from `src/parser/expr.rs`. -/
def infixBindingPower (op : TokenKind) : Option (Nat × Nat) :=
  match op with
  | .Star | .Slash | .Percent => some (19, 20)
  | .Plus | .Minus => some (17, 18)
  | .Shl | .Shr => some (15, 16)
  | .And => some (13, 14)
  | .Caret => some (11, 12)
  | .Or => some (9, 10)
  | .EqEq | .BangEq | .Lt | .LtEq | .Gt | .GtEq => some (7, 8)
  | .AndAnd => some (5, 6)
  | .OrOr => some (3, 4)
  | .Eq | .PlusEq | .MinusEq | .StarEq | .SlashEq | .PercentEq | .AndEq | .OrEq
  | .CaretEq | .ShlEq | .ShrEq => some (2, 1)
  | _ => none

/-- Embeds `prefix_binding_power` from `src/parser/expr.rs` (the
`unreachable!` arm is `none`). -/
def prefixBindingPower (op : TokenKind) : Option Nat :=
  match op with
  | .Minus | .Bang | .Tilde | .Star | .And => some 23
  | _ => none

mutual
/-- Embeds `Parser::expression_(mbp)` from `src/parser/expr.rs`: parse a
primary or prefix expression as the initial left-hand side, then run the
operator loop. -/
def exprAt : Nat → Nat → PState → Except PErr (Expression × PState)
  | 0, _, _ => .error .fuelOut
  | fuel + 1, mbp, p =>
    match p.toks with
    | [] => .error .nextNone
    | tok :: _ =>
      let p1 := advance p
      -- `let text = self.text(token.span());` (an invalid span panics)
      match spanText tok.span p.source with
      | none => .error .badSpan
      | some text =>
        match tok.kind with
        | .Number =>
          match parse_number text with
          | none => .error .numberPanic
          | some lhs => exprLoop fuel mbp lhs p1
        | .True => exprLoop fuel mbp (.Literal (.Bool true)) p1
        | .False => exprLoop fuel mbp (.Literal (.Bool false)) p1
        | .LeftParen =>
          match exprAt fuel 0 p1 with
          | .error e => .error e
          | .ok (lhs, p2) =>
            match expect .RightParen p2 with
            | .error e => .error e
            | .ok p3 => exprLoop fuel mbp lhs p3
        | .Minus | .Bang | .Tilde | .Star | .And =>
          match exprAt fuel 23 p1 with
          | .error e => .error e
          | .ok (rhs, p2) => exprLoop fuel mbp (prefixOperator tok.kind rhs) p2
        | _ => .error .unimplementedPrimary

/-- The `loop` of `Parser::expression_`: peek the next operator and fold
postfix/infix applications while their left binding power reaches the
minimum. -/
def exprLoop : Nat → Nat → Expression → PState → Except PErr (Expression × PState)
  | 0, _, _, _ => .error .fuelOut
  | fuel + 1, mbp, lhs, p =>
    let op := peekKind p
    if loopOpAllowed op then
      match postfixBindingPower op with
      | some lbp =>
        if lbp < mbp then .ok (lhs, p)
        else
          let p1 := advance p
          if op = .LeftParen then
            match callParams fuel p1 [] with
            | .error e => .error e
            | .ok (params, p2) =>
              match expect .RightParen p2 with
              | .error e => .error e
              | .ok p3 => exprLoop fuel mbp (.Call lhs params) p3
          else
            match exprAt fuel 0 p1 with
            | .error e => .error e
            | .ok (rhs, p2) =>
              match expect .RightBracket p2 with
              | .error e => .error e
              | .ok p3 => exprLoop fuel mbp (.Index lhs rhs) p3
      | none =>
        match infixBindingPower op with
        | some (lbp, rbp) =>
          if lbp < mbp then .ok (lhs, p)
          else
            let p1 := advance p
            match exprAt fuel rbp p1 with
            | .error e => .error e
            | .ok (rhs, p2) => exprLoop fuel mbp (infixOperator lhs op rhs) p2
        | none => .ok (lhs, p)
    else if op = .Semicolon then .ok (lhs, p)
    else .error (.syntaxError op)

/-- The comma-separated call-parameter loop of `Parser::expression_`
(`while !matches!(self.peek(), RightParen | Eof)`). -/
def callParams : Nat → PState → List Expression → Except PErr (List Expression × PState)
  | 0, _, _ => .error .fuelOut
  | fuel + 1, p, acc =>
    if peekKind p = .RightParen ∨ peekKind p = .Eof then .ok (acc, p)
    else
      match exprAt fuel 0 p with
      | .error e => .error e
      | .ok (param, p1) =>
        let next :=
          if peekKind p1 ≠ .RightParen then expect .Comma p1 else .ok p1
        match next with
        | .error e => .error e
        | .ok p2 => callParams fuel p2 (acc ++ [param])
end

/-- Embeds `Parser::expression` (`expression_(0)`) on a freshly
constructed `Parser` for the given source text (as `main.rs` does); ample
fuel, see `exprFuel`-independence of the concrete claims. -/
def parseExpr (src : List Char) : Except PErr Expression :=
  (exprAt (4 * src.length + 16) 0 ⟨src, tokensOf asciiXid src⟩).map (·.1)

/-- `parseExpr` on a string literal. -/
def parseExprStr (s : String) : Except PErr Expression := parseExpr s.toList

/-! ## Specification-side helper definitions

These are used only to *state* properties (positional decimal value,
position of the last newline of a whitespace run, comment-start and
`*/`-occurrence tests); the embedded code above never calls them. -/

/-- The positional decimal value of a digit string:
`d₀·10^(n-1) + … + d_(n-1)` — the spec-side meaning of a `Number`
token's text, defined independently of the parser's accumulation loop. -/
def decimalValue : List Char → Nat
  | [] => 0
  | c :: rest => (c.toNat - '0'.toNat) * 10 ^ rest.length + decimalValue rest

/-- Byte offset of the last `'\n'` in `l`, where `l` starts at byte
offset `off`; `none` when `l` has no newline. -/
def lastNLOff (off : Nat) : List Char → Option Nat
  | [] => none
  | c :: rest =>
    match lastNLOff (off + c.utf8Size) rest with
    | some q => some q
    | none => if c = '\n' then some off else none

/-- The number of characters after the last `'\n'` of `l` (all of `l`
when it has no newline): the spec-side meaning of a 1-based column. -/
def afterLastNewline (l : List Char) : Nat :=
  (l.reverse.takeWhile (fun c => c != '\n')).length

/-- Whether a character sequence begins with a line- or block-comment
opener (`//` or `/*`). -/
def startsComment : List Char → Bool
  | '/' :: '/' :: _ => true
  | '/' :: '*' :: _ => true
  | _ => false

/-- Whether a character sequence contains an adjacent `*/` pair (i.e. a
block-comment terminator). -/
def containsStarSlash : List Char → Bool
  | [] => false
  | c :: rest => (c = '*' ∧ rest.head? = some '/') ∨ containsStarSlash rest

/-! # Theorems -/

/-! ## Shared helper lemmas -/

theorem utf8Len_nil : utf8Len [] = 0 := rfl

theorem utf8Len_cons (c : Char) (l : List Char) :
    utf8Len (c :: l) = c.utf8Size + utf8Len l := by
  simp [utf8Len]

theorem utf8Len_append (a b : List Char) :
    utf8Len (a ++ b) = utf8Len a + utf8Len b := by
  simp [utf8Len]

theorem one_le_utf8Size (c : Char) : 1 ≤ c.utf8Size := c.utf8Size_pos

/-! ## C1 — keyword recognizer exactness -/

/-- C1: the claim fails on the code.  The `b'f' if buf[1] == b'n'` arm of
`check_keyword` returns `Fn` *without* the full fixed-width-buffer
equality check, so the non-reserved lowercase string `"fna"` (length 3,
well within the ≤ 8 bound) is classified — and tokenized by the Lexer —
as the keyword `fn` instead of `Identifier`.  The other fourteen arms do
verify the full buffer, and each reserved word maps to its exact tag. -/
theorem keyword_fn_arm_false_positive :
    check_keyword (kw "fna".toList) = TokenKind.Fn ∧
    tokensOfStr "fna" = [⟨.Fn, 0, 3⟩, ⟨.Eof, 3, 3⟩] ∧
    "fna" ∉ ["break", "const", "continue", "else", "enum", "false", "for", "fn",
      "if", "let", "mut", "pub", "return", "true", "while"] ∧
    (["break", "const", "continue", "else", "enum", "false", "for", "fn", "if",
      "let", "mut", "pub", "return", "true", "while"].map
        (fun s => (tokensOf asciiXid s.toList).map Token.kind)) =
      ([[.Break, .Eof], [.Const, .Eof], [.Continue, .Eof], [.Else, .Eof],
        [.Enum, .Eof], [.False, .Eof], [.For, .Eof], [.Fn, .Eof], [.If, .Eof],
        [.Let, .Eof], [.Mut, .Eof], [.Pub, .Eof], [.Return, .Eof], [.True, .Eof],
        [.While, .Eof]] : List (List TokenKind)) := by
  refine ⟨by decide, by decide, by decide, by decide⟩

/-! ## C3 — infix precedence and left associativity -/

/-- C3 counterexample: on the bare input `"1+2*3"` (no trailing
terminator) the parser does *not* produce a tree at all: after the final
`3` the operator loop peeks `Eof`, which is not an admitted operator and
not `Semicolon`, so the `op => panic!` arm aborts the parse. -/
theorem precedence_bare_input_eof_panic :
    parseExprStr "1+2*3" = .error (.syntaxError .Eof) := by rfl

/-- C3 (amended): with a statement terminator present — e.g. the trailing
newline that the REPL's `read_line` always supplies, which makes the
Lexer inject a `Semicolon` that stops the operator loop — `"1+2*3"`
parses to `Add(1, Mul(2,3))`, `"1*2+3"` to `Add(Mul(1,2), 3)`, and
`"1+2+3"` to the left-associated `Add(Add(1,2), 3)`. -/
theorem precedence_examples :
    parseExprStr "1+2*3\n" =
      .ok (.Operator (.ArithmeticLogical (.Literal (.Integer 1)) .Plus
        (.Operator (.ArithmeticLogical (.Literal (.Integer 2)) .Multiply
          (.Literal (.Integer 3)))))) ∧
    parseExprStr "1*2+3\n" =
      .ok (.Operator (.ArithmeticLogical
        (.Operator (.ArithmeticLogical (.Literal (.Integer 1)) .Multiply
          (.Literal (.Integer 2)))) .Plus
        (.Literal (.Integer 3)))) ∧
    parseExprStr "1+2+3\n" =
      .ok (.Operator (.ArithmeticLogical
        (.Operator (.ArithmeticLogical (.Literal (.Integer 1)) .Plus
          (.Literal (.Integer 2)))) .Plus
        (.Literal (.Integer 3)))) := by
  exact ⟨rfl, rfl, rfl⟩

/-! ## C4 — right associativity of assignment -/

/-- C4 counterexample: `"a=b=c"` does not parse at all — the very first
token is an `Identifier`, and identifier primaries hit the
`_ => unimplemented!()` arm of `expression_` (the `TODO: Identifiers,
strings, ...` case), so no `Assign` tree is produced. -/
theorem assignment_ident_primary_unimplemented :
    parseExprStr "a=b=c" = .error .unimplementedPrimary := by rfl

/-- C4 (amended): identifier primaries are unimplemented, so `"a=b=c"`
aborts; the right-associativity of the assignment family itself holds
exactly as claimed via the `(2, 1)` binding-power pair: on parsable
primaries, `"1=2=3"` (with the terminating newline) yields the
right-associated `Assign(1, Assign(2, 3))`. -/
theorem assignment_right_associative :
    infixBindingPower .Eq = some (2, 1) ∧
    parseExprStr "1=2=3\n" =
      .ok (.Operator (.Assignment (.Literal (.Integer 1))
        (.Operator (.Assignment (.Literal (.Integer 2))
          (.Literal (.Integer 3)))))) := by
  exact ⟨rfl, rfl⟩

/-! ## C6 — integer literal overflow -/

/-- The checked accumulation loop of `u64::from_str` computes exactly the
positional decimal value when that value is representable, and fails
(never wraps) as soon as it is not. -/
theorem parseU64Loop_eq (cs : List Char) :
    ∀ acc : Nat, acc ≤ u64Max → (∀ c ∈ cs, rustIsAsciiDigit c = true) →
      parseU64Loop acc cs =
        if acc * 10 ^ cs.length + decimalValue cs ≤ u64Max then
          some (acc * 10 ^ cs.length + decimalValue cs)
        else none := by
  induction cs with
  | nil =>
    intro acc hacc _
    simp [parseU64Loop, decimalValue, hacc]
  | cons c rest ih =>
    intro acc hacc hdig
    have hc : rustIsAsciiDigit c = true := hdig c (by simp)
    have harith : (acc * 10 + (c.toNat - '0'.toNat)) * 10 ^ rest.length + decimalValue rest =
        acc * 10 ^ (rest.length + 1) + decimalValue (c :: rest) := by
      simp [decimalValue]
      ring
    rw [parseU64Loop, if_pos hc]
    simp only []
    by_cases hle : acc * 10 + (c.toNat - '0'.toNat) ≤ u64Max
    · rw [if_pos hle, ih _ hle (fun x hx => hdig x (by simp [hx])), harith]
      simp [List.length_cons]
    · rw [if_neg hle]
      have hbig : u64Max < acc * 10 ^ (rest.length + 1) + decimalValue (c :: rest) := by
        rw [← harith]
        have h1 : acc * 10 + (c.toNat - '0'.toNat) ≤
            (acc * 10 + (c.toNat - '0'.toNat)) * 10 ^ rest.length :=
          Nat.le_mul_of_pos_right _ (Nat.pos_pow_of_pos _ (by norm_num))
        omega
      rw [if_neg (by simp [List.length_cons]; omega)]

/-- C6: a `Number` token's digit text within `u64` range parses to
exactly its positional decimal value; a digit text exceeding `u64::MAX`
makes `parse_number` fail (the `unwrap` panic on the parse error),
never wrapping or truncating. -/
theorem parse_number_range_checked :
    ∀ cs : List Char, cs ≠ [] → (∀ c ∈ cs, rustIsAsciiDigit c = true) →
      (decimalValue cs ≤ u64Max →
        parse_number cs = some (.Literal (.Integer (decimalValue cs)))) ∧
      (u64Max < decimalValue cs → parse_number cs = none) := by
  intro cs hne hdig
  have h0 : (0 : Nat) ≤ u64Max := Nat.zero_le _
  have hloop := parseU64Loop_eq cs 0 h0 hdig
  rw [Nat.zero_mul, Nat.zero_add] at hloop
  constructor
  · intro hle
    simp [parse_number, parseU64, hne, hloop, hle]
  · intro hgt
    simp [parse_number, parseU64, hne, hloop, Nat.not_le_of_lt hgt]

/-- Witness for C6 at the concrete out-of-range input `2^64` (twenty
digits): the parse fails rather than wrapping. -/
theorem parse_number_range_checked_witness :
    parse_number "18446744073709551616".toList = none :=
  (parse_number_range_checked _ (by decide) (by decide)).2 (by decide)

/-! ## C8 — line/column conversion -/

theorem takeWhile_append_eq (p : Char → Bool) (a b : List Char) :
    (a ++ b).takeWhile p =
      if a.all p then a ++ b.takeWhile p else a.takeWhile p := by
  induction a with
  | nil => simp
  | cons c rest ih =>
    by_cases hc : p c
    · by_cases hall : rest.all p
      · simp only [List.cons_append, List.takeWhile_cons, hc, if_true, ih, hall,
          List.all_cons, Bool.and_self]
      · simp only [List.cons_append, List.takeWhile_cons, hc, if_true, ih, hall,
          List.all_cons, Bool.and_false, if_false, Bool.true_and, Bool.false_eq_true]
    · have hfalse : (c :: rest).all p = false := by
        simp [List.all_cons, hc]
      simp [List.takeWhile_cons, hc, hfalse]

theorem afterLastNewline_cons (c : Char) (t : List Char) :
    afterLastNewline (c :: t) =
      if '\n' ∈ t then afterLastNewline t
      else if c = '\n' then t.length else t.length + 1 := by
  have hrev : (c :: t).reverse = t.reverse ++ [c] := by simp
  rw [afterLastNewline, hrev, takeWhile_append_eq]
  by_cases hmem : '\n' ∈ t
  · have hall : t.reverse.all (fun c => c != '\n') = false := by
      simpa using hmem
    simp [hall, afterLastNewline, hmem]
  · have hall : t.reverse.all (fun c => c != '\n') = true := by
      simp only [List.all_eq_true, List.mem_reverse, bne_iff_ne]
      intro x hx
      exact fun h => hmem (h ▸ hx)
    simp only [hall, if_true, if_neg hmem]
    by_cases hc : c = '\n' <;>
      simp [List.takeWhile_cons, bne_iff_ne, hc]

theorem afterLastNewline_of_not_mem {t : List Char} (h : '\n' ∉ t) :
    afterLastNewline t = t.length := by
  have hall : t.reverse.all (fun c => c != '\n') = true := by
    simp [List.all_eq_true]
    intro x hx
    exact fun he => h (he ▸ hx)
  rw [afterLastNewline, List.takeWhile_eq_self_iff.mpr ?_, List.length_reverse]
  intro x hx
  simpa using (List.all_eq_true.mp hall x hx)

/-- The scanning loop of `as_line_and_column`, characterized on a target
offset that is the byte length of the first `k` characters: it folds the
line/column update over exactly those `k` characters. -/
theorem lineColLoop_eq (l : List Char) :
    ∀ (k line col pos : Nat), k ≤ l.length →
      lineColLoop (pos + utf8Len (l.take k)) line col pos l =
        (line + (l.take k).count '\n',
         if '\n' ∈ l.take k then 1 + afterLastNewline (l.take k) else col + k) := by
  induction l with
  | nil =>
    intro k line col pos hk
    have hk0 : k = 0 := Nat.le_zero.mp hk
    subst hk0
    simp [lineColLoop, utf8Len]
  | cons c rest ih =>
    intro k line col pos hk
    match k with
    | 0 => simp [lineColLoop, utf8Len]
    | k' + 1 =>
      have hk' : k' ≤ rest.length := by simpa using hk
      have hlen : (rest.take k').length = k' := by simp [hk']
      have hsz := one_le_utf8Size c
      have hstep : ¬ (pos + utf8Len ((c :: rest).take (k' + 1)) ≤ pos) := by
        simp only [List.take_succ_cons, utf8Len_cons]
        omega
      rw [List.take_succ_cons, utf8Len_cons]
      by_cases hc : c = '\n'
      · subst hc
        rw [lineColLoop, if_neg (by rw [← utf8Len_cons, ← List.take_succ_cons]; exact hstep),
          if_pos rfl]
        have := ih k' (line + 1) 1 (pos + '\n'.utf8Size) hk'
        rw [show pos + ('\n'.utf8Size + utf8Len (rest.take k')) =
          pos + '\n'.utf8Size + utf8Len (rest.take k') by omega, this]
        rw [afterLastNewline_cons]
        by_cases hmem : '\n' ∈ rest.take k' <;>
          simp [hmem, List.count_cons, hlen, Nat.add_comm, Nat.add_assoc, Nat.add_left_comm]
      · have hc' : ¬ ('\n' = c) := fun h => hc h.symm
        rw [lineColLoop, if_neg (by rw [← utf8Len_cons, ← List.take_succ_cons]; exact hstep),
          if_neg hc]
        have := ih k' line (col + 1) (pos + c.utf8Size) hk'
        rw [show pos + (c.utf8Size + utf8Len (rest.take k')) =
          pos + c.utf8Size + utf8Len (rest.take k') by omega, this]
        rw [afterLastNewline_cons]
        by_cases hmem : '\n' ∈ rest.take k' <;>
          simp [hmem, hc, hc', List.count_cons, hlen, Nat.add_comm, Nat.add_assoc,
            Nat.add_left_comm]

/-- C8: for a byte offset on a character boundary (the byte length of the
first `k` characters), `as_line_and_column` yields the 1-based pair
(1 + number of newlines strictly before the offset,
 1 + number of characters after the last such newline or the text
start). -/
theorem line_column_scan (cs : List Char) (k : Nat) (hk : k ≤ cs.length) :
    as_line_and_column (utf8Len (cs.take k)) cs =
      (1 + (cs.take k).count '\n', 1 + afterLastNewline (cs.take k)) := by
  have h := lineColLoop_eq cs k 1 1 0 hk
  rw [Nat.zero_add] at h
  rw [as_line_and_column, h]
  by_cases hmem : '\n' ∈ cs.take k
  · simp [hmem, Nat.add_comm]
  · rw [if_neg hmem, afterLastNewline_of_not_mem hmem]
    simp [hk, Nat.add_comm]

/-- Witness for C8 at the concrete text `"ab\ncd"` and boundary offset 4
(after `"ab\nc"`): line 2, column 2. -/
theorem line_column_scan_witness :
    as_line_and_column (utf8Len ((String.toList "ab\ncd").take 4)) (String.toList "ab\ncd") =
      (1 + ((String.toList "ab\ncd").take 4).count '\n',
       1 + afterLastNewline ((String.toList "ab\ncd").take 4)) :=
  line_column_scan (String.toList "ab\ncd") 4 (by decide)

/-! ## C7 — span text extraction -/

theorem utf8Len_pos_of_ne_nil {l : List Char} (h : l ≠ []) : 1 ≤ utf8Len l := by
  match l with
  | [] => exact absurd rfl h
  | c :: rest =>
    rw [utf8Len_cons]
    have := one_le_utf8Size c
    omega

theorem utf8Len_take_le (cs : List Char) (k : Nat) :
    utf8Len (cs.take k) ≤ utf8Len cs := by
  conv_rhs => rw [← List.take_append_drop k cs]
  rw [utf8Len_append]
  omega

theorem utf8Len_take_lt {cs : List Char} {k₁ k₂ : Nat} (h : k₁ < k₂)
    (hk : k₂ ≤ cs.length) :
    utf8Len (cs.take k₁) < utf8Len (cs.take k₂) := by
  have hsplit : cs.take k₂ = cs.take k₁ ++ (cs.drop k₁).take (k₂ - k₁) := by
    rw [← List.take_add]
    congr 1
    omega
  have hne : (cs.drop k₁).take (k₂ - k₁) ≠ [] := by
    have hlen : ((cs.drop k₁).take (k₂ - k₁)).length = min (k₂ - k₁) (cs.length - k₁) := by
      simp
    intro hnil
    rw [hnil] at hlen
    simp at hlen
    omega
  have := utf8Len_pos_of_ne_nil hne
  rw [hsplit, utf8Len_append]
  omega

theorem of_dropBytes_some (cs : List Char) :
    ∀ (n : Nat) (r : List Char), dropBytes cs n = some r →
      ∃ k, k ≤ cs.length ∧ utf8Len (cs.take k) = n ∧ r = cs.drop k := by
  induction cs with
  | nil =>
    intro n r h
    match n with
    | 0 =>
      exact ⟨0, by simp, by simp [utf8Len], by simpa [dropBytes] using h.symm⟩
    | _ + 1 => exact absurd h (by simp [dropBytes])
  | cons c rest ih =>
    intro n r h
    match n with
    | 0 =>
      exact ⟨0, by simp, by simp [utf8Len], by simpa [dropBytes] using h.symm⟩
    | n' + 1 =>
      rw [dropBytes] at h
      by_cases hsz : c.utf8Size ≤ n' + 1
      · rw [if_pos hsz] at h
        obtain ⟨k', hk', hlen, hr⟩ := ih _ _ h
        refine ⟨k' + 1, by simpa using hk', ?_, by simpa using hr⟩
        rw [List.take_succ_cons, utf8Len_cons, hlen]
        omega
      · rw [if_neg hsz] at h
        exact absurd h (by simp)

theorem dropBytes_some_of (cs : List Char) :
    ∀ (k : Nat), k ≤ cs.length →
      dropBytes cs (utf8Len (cs.take k)) = some (cs.drop k) := by
  induction cs with
  | nil =>
    intro k hk
    have : k = 0 := Nat.le_zero.mp hk
    subst this
    simp [dropBytes, utf8Len]
  | cons c rest ih =>
    intro k hk
    match k with
    | 0 => simp [dropBytes, utf8Len]
    | k' + 1 =>
      have hk' : k' ≤ rest.length := by simpa using hk
      rw [List.take_succ_cons, utf8Len_cons]
      have hsz := one_le_utf8Size c
      have hform : c.utf8Size + utf8Len (rest.take k') =
          (c.utf8Size + utf8Len (rest.take k') - 1) + 1 := by omega
      rw [hform, dropBytes]
      rw [if_pos (by omega)]
      have : c.utf8Size + utf8Len (rest.take k') - 1 + 1 - c.utf8Size =
          utf8Len (rest.take k') := by omega
      rw [this, ih k' hk']
      simp

theorem of_takeBytes_some (cs : List Char) :
    ∀ (n : Nat) (m : List Char), takeBytes cs n = some m →
      ∃ k, k ≤ cs.length ∧ utf8Len (cs.take k) = n ∧ m = cs.take k := by
  induction cs with
  | nil =>
    intro n m h
    match n with
    | 0 =>
      exact ⟨0, by simp, by simp [utf8Len], by simpa [takeBytes] using h.symm⟩
    | _ + 1 => exact absurd h (by simp [takeBytes])
  | cons c rest ih =>
    intro n m h
    match n with
    | 0 =>
      refine ⟨0, by simp, by simp [utf8Len], ?_⟩
      simp only [takeBytes] at h
      simp [← Option.some_inj.mp h]
    | n' + 1 =>
      rw [takeBytes] at h
      by_cases hsz : c.utf8Size ≤ n' + 1
      · rw [if_pos hsz] at h
        match hrec : takeBytes rest (n' + 1 - c.utf8Size) with
        | none => rw [hrec] at h; exact absurd h (by simp)
        | some m₀ =>
          rw [hrec] at h
          obtain ⟨k', hk', hlen, hm⟩ := ih _ _ hrec
          refine ⟨k' + 1, by simpa using hk', ?_, ?_⟩
          · rw [List.take_succ_cons, utf8Len_cons, hlen]
            omega
          · rw [List.take_succ_cons, ← hm]
            simpa using h.symm
      · rw [if_neg hsz] at h
        exact absurd h (by simp)

theorem takeBytes_some_of (cs : List Char) :
    ∀ (k : Nat), k ≤ cs.length →
      takeBytes cs (utf8Len (cs.take k)) = some (cs.take k) := by
  induction cs with
  | nil =>
    intro k hk
    have : k = 0 := Nat.le_zero.mp hk
    subst this
    simp [takeBytes, utf8Len]
  | cons c rest ih =>
    intro k hk
    match k with
    | 0 => simp [takeBytes, utf8Len]
    | k' + 1 =>
      have hk' : k' ≤ rest.length := by simpa using hk
      rw [List.take_succ_cons, utf8Len_cons]
      have hsz := one_le_utf8Size c
      have hform : c.utf8Size + utf8Len (rest.take k') =
          (c.utf8Size + utf8Len (rest.take k') - 1) + 1 := by omega
      rw [hform, takeBytes]
      rw [if_pos (by omega)]
      have : c.utf8Size + utf8Len (rest.take k') - 1 + 1 - c.utf8Size =
          utf8Len (rest.take k') := by omega
      rw [this, ih k' hk']
      simp

/-- C7: `SourceSpan::text` returns `some` exactly when both endpoints of
the (forward) byte range are character-boundary offsets within the text,
and the returned substring covers exactly the half-open byte range
`[start, stop)`. -/
theorem span_text_utf8_bounds (cs : List Char) (s e : Nat) (hse : s ≤ e) :
    (((∃ k, k ≤ cs.length ∧ utf8Len (cs.take k) = s) ∧
      (∃ k, k ≤ cs.length ∧ utf8Len (cs.take k) = e) ∧ e ≤ utf8Len cs) ↔
      ∃ mid, spanText ⟨s, e⟩ cs = some mid) ∧
    (∀ mid, spanText ⟨s, e⟩ cs = some mid →
      ∃ pre post, cs = pre ++ mid ++ post ∧ utf8Len pre = s ∧
        utf8Len (pre ++ mid) = e) := by
  have hunfold : spanText ⟨s, e⟩ cs =
      (dropBytes cs s).bind (fun r => takeBytes r (e - s)) := by
    simp [spanText, hse]
  constructor
  · constructor
    · rintro ⟨⟨k₁, hk₁, hs⟩, ⟨k₂, hk₂, he⟩, _⟩
      have hkk : k₁ ≤ k₂ := by
        by_contra hlt
        push_neg at hlt
        have := utf8Len_take_lt hlt hk₁
        omega
      have hsplit : cs.take k₂ = cs.take k₁ ++ (cs.drop k₁).take (k₂ - k₁) := by
        rw [← List.take_add]
        congr 1
        omega
      have hmidlen : utf8Len ((cs.drop k₁).take (k₂ - k₁)) = e - s := by
        have : utf8Len (cs.take k₂) =
            utf8Len (cs.take k₁) + utf8Len ((cs.drop k₁).take (k₂ - k₁)) := by
          rw [hsplit, utf8Len_append]
        omega
      have hbound : k₂ - k₁ ≤ (cs.drop k₁).length := by
        rw [List.length_drop]
        omega
      refine ⟨(cs.drop k₁).take (k₂ - k₁), ?_⟩
      have hd : dropBytes cs s = some (cs.drop k₁) := hs ▸ dropBytes_some_of cs k₁ hk₁
      rw [hunfold, hd, Option.some_bind, ← hmidlen]
      exact takeBytes_some_of _ _ hbound
    · rintro ⟨mid, hmid⟩
      rw [hunfold] at hmid
      match hdrop : dropBytes cs s with
      | none => rw [hdrop] at hmid; exact absurd hmid (by simp)
      | some r =>
        rw [hdrop] at hmid
        simp only [Option.some_bind] at hmid
        obtain ⟨k₁, hk₁, hs, hr⟩ := of_dropBytes_some cs s r hdrop
        obtain ⟨k', hk', hx, _⟩ := of_takeBytes_some r _ mid hmid
        rw [hr] at hk' hx
        have hsplit : cs.take (k₁ + k') = cs.take k₁ ++ (cs.drop k₁).take k' := by
          rw [← List.take_add]
        have hlen : utf8Len (cs.take (k₁ + k')) = e := by
          rw [hsplit, utf8Len_append, hs, hx]
          omega
        have hkb : k₁ + k' ≤ cs.length := by
          rw [List.length_drop] at hk'
          omega
        exact ⟨⟨k₁, hk₁, hs⟩, ⟨k₁ + k', hkb, hlen⟩, hlen ▸ utf8Len_take_le cs (k₁ + k')⟩
  · intro mid hmid
    rw [hunfold] at hmid
    match hdrop : dropBytes cs s with
    | none => rw [hdrop] at hmid; exact absurd hmid (by simp)
    | some r =>
      rw [hdrop] at hmid
      simp only [Option.some_bind] at hmid
      obtain ⟨k₁, hk₁, hs, hr⟩ := of_dropBytes_some cs s r hdrop
      obtain ⟨k', hk', hx, hm⟩ := of_takeBytes_some r _ mid hmid
      refine ⟨cs.take k₁, r.drop k', ?_, hs, ?_⟩
      · rw [hm, List.append_assoc, List.take_append_drop, hr, List.take_append_drop]
      · rw [utf8Len_append, hs, hm, hx]
        omega

/-- Witness for C7 at the text `"héllo"` (the `é` occupies two bytes):
the in-bounds boundary range `[1, 3)` succeeds (and offset 2 would split
the `é`). -/
theorem span_text_utf8_bounds_witness :
    ∃ mid, spanText ⟨1, 3⟩ (String.toList "héllo") = some mid :=
  (span_text_utf8_bounds (String.toList "héllo") 1 3 (by omega)).1.mp
    ⟨⟨1, by decide, by decide⟩, ⟨2, by decide, by decide⟩, by decide⟩

/-! ## C2 — implicit semicolon injection -/

theorem lastNLOff_cons_ne {c : Char} (hc : ¬ c = '\n') (off : Nat) (l : List Char) :
    lastNLOff off (c :: l) = lastNLOff (off + c.utf8Size) l := by
  rw [lastNLOff]
  cases lastNLOff (off + c.utf8Size) l <;> simp [hc]

/-- Characterization of the `Lexer::whitespace` loop on runs that do not
end at a comment opener: the loop consumes exactly the maximal whitespace
prefix, and yields a zero-width `Semicolon` positioned at the *last*
newline of that prefix when the previous token terminates an expression
(otherwise the incoming pending token). -/
theorem whitespaceLoop_no_comment (prev : TokenKind) :
    ∀ (l : List Char) (off : Nat) (tok : Option Token),
      startsComment (l.dropWhile rustIsWhitespace) = false →
      whitespaceLoop prev l off tok =
        ((if should_terminate_expr prev then
            match lastNLOff off (l.takeWhile rustIsWhitespace) with
            | some p => some ⟨.Semicolon, p, p⟩
            | none => tok
          else tok),
         l.dropWhile rustIsWhitespace, off + utf8Len (l.takeWhile rustIsWhitespace)) := by
  intro l
  induction l with
  | nil =>
    intro off tok _
    simp [whitespaceLoop, lastNLOff, utf8Len]
  | cons c rest ih =>
    intro off tok hnc
    by_cases hc : c = '\n'
    · subst hc
      have hws : rustIsWhitespace '\n' = true := by decide
      rw [List.dropWhile_cons_of_pos hws] at hnc ⊢
      rw [List.takeWhile_cons_of_pos hws]
      rw [whitespaceLoop, if_pos rfl, ih _ _ hnc]
      rw [lastNLOff]
      by_cases hterm : should_terminate_expr prev
      · cases hnl : lastNLOff (off + '\n'.utf8Size) (rest.takeWhile rustIsWhitespace) with
        | none => simp [hterm, hnl, utf8Len_cons, Nat.add_assoc]
        | some q => simp [hterm, hnl, utf8Len_cons, Nat.add_assoc]
      · simp [hterm, utf8Len_cons, Nat.add_assoc]
    · by_cases hws : rustIsWhitespace c
      · rw [List.dropWhile_cons_of_pos hws] at hnc ⊢
        rw [List.takeWhile_cons_of_pos hws]
        rw [whitespaceLoop, if_neg hc, if_pos hws, ih _ _ hnc]
        rw [lastNLOff_cons_ne hc, utf8Len_cons]
        simp [Nat.add_assoc]
      · have hc2 : ¬ (c = '/' ∧ rest.head? = some '/') := by
          rintro ⟨rfl, hh⟩
          match rest, hh with
          | d :: rest', hh =>
            have hd : d = '/' := by simpa using hh
            subst hd
            rw [List.dropWhile_cons_of_neg hws] at hnc
            simp [startsComment] at hnc
        have hc3 : ¬ (c = '/' ∧ rest.head? = some '*') := by
          rintro ⟨rfl, hh⟩
          match rest, hh with
          | d :: rest', hh =>
            have hd : d = '*' := by simpa using hh
            subst hd
            rw [List.dropWhile_cons_of_neg hws] at hnc
            simp [startsComment] at hnc
        rw [List.dropWhile_cons_of_neg hws, List.takeWhile_cons_of_neg hws]
        rw [whitespaceLoop, if_neg hc, if_neg hws, if_neg hc2, if_neg hc3]
        simp [lastNLOff, utf8Len]

/-- C2 counterexample: the input `"x\n//c"` crosses a newline while the
most recently emitted token is an `Identifier` (which is in the
expression-terminating set), yet *no* `Semicolon` appears in the output:
the line comment encountered later in the same whitespace run overwrites
the pending synthetic semicolon. -/
theorem semicolon_pending_overwritten_by_comment :
    tokensOfStr "x\n//c" =
      [⟨.Identifier, 0, 1⟩, ⟨.Comment, 2, 5⟩, ⟨.Eof, 5, 5⟩] ∧
    TokenKind.Semicolon ∉ (tokensOfStr "x\n//c").map Token.kind := by
  exact ⟨by decide, by decide⟩

/-- C2 (amended): over a contiguous whitespace run that does not end at a
comment opener, crossing at least one newline while the previous token is
in the expression-terminating set makes `whitespace` yield exactly one
zero-width `Semicolon`, positioned at the last newline crossed in the
run, before scanning resumes at the first non-whitespace character; with
no newline, or a previous token outside the set, nothing is injected.
(When a comment opener ends the run, the `Comment` token replaces the
pending semicolon — see the counterexample.)  In particular `"x\n"`
lexes to `[Identifier, Semicolon(zero-width at the newline), Eof]` and
`"x+\n"` to `[Identifier, Plus, Eof]`. -/
theorem semicolon_injection_characterized :
    (∀ s : LexState,
      startsComment (s.src.dropWhile rustIsWhitespace) = false →
      whitespace s =
        ((if should_terminate_expr s.prev then
            match lastNLOff s.off (s.src.takeWhile rustIsWhitespace) with
            | some p => some ⟨.Semicolon, p, p⟩
            | none => none
          else none),
         s.src.dropWhile rustIsWhitespace,
         s.off + utf8Len (s.src.takeWhile rustIsWhitespace))) ∧
    tokensOfStr "x\n" = [⟨.Identifier, 0, 1⟩, ⟨.Semicolon, 1, 1⟩, ⟨.Eof, 2, 2⟩] ∧
    tokensOfStr "x+\n" = [⟨.Identifier, 0, 1⟩, ⟨.Plus, 1, 2⟩, ⟨.Eof, 3, 3⟩] := by
  refine ⟨fun s hnc => whitespaceLoop_no_comment s.prev s.src s.off none hnc,
    by decide, by decide⟩

/-- Witness for C2 at the concrete state after lexing `"x"` from `"x\n"`
(previous token `Identifier`, cursor on the newline at offset 1): a
zero-width `Semicolon` at offset 1 is injected. -/
theorem semicolon_injection_characterized_witness :
    whitespace ⟨['\n'], 1, .Identifier⟩ = (some ⟨.Semicolon, 1, 1⟩, [], 2) := by
  have h := semicolon_injection_characterized.1 ⟨['\n'], 1, .Identifier⟩ (by decide)
  simpa using h

/-! ## C10 — comments are emitted as tokens -/

theorem lineCommentLoop_run :
    ∀ (body : List Char), '\n' ∉ body →
      ∀ (rest : List Char) (off : Nat), (rest = [] ∨ rest.head? = some '\n') →
        lineCommentLoop (body ++ rest) off = (rest, off + utf8Len body) := by
  intro body
  induction body with
  | nil =>
    intro _ rest off hrest
    rcases hrest with rfl | hh
    · simp [lineCommentLoop, utf8Len]
    · match rest, hh with
      | d :: rest', hh =>
        have hd : d = '\n' := by simpa using hh
        subst hd
        simp [lineCommentLoop, utf8Len]
  | cons c body' ih =>
    intro hmem rest off hrest
    have hc : ¬ c = '\n' := fun h => hmem (h ▸ List.mem_cons_self c body')
    rw [List.cons_append, lineCommentLoop, if_neg hc,
      ih (fun h => hmem (List.mem_cons_of_mem c h)) rest _ hrest, utf8Len_cons]
    simp [Nat.add_assoc]

theorem mlCommentLoop_to_close :
    ∀ (body : List Char), containsStarSlash body = false →
      ∀ (rest : List Char) (off : Nat),
        mlCommentLoop (body ++ '*' :: '/' :: rest) off =
          ('*' :: '/' :: rest, off + utf8Len body) := by
  intro body
  induction body with
  | nil =>
    intro _ rest off
    simp [mlCommentLoop, utf8Len]
  | cons c body' ih =>
    intro hss rest off
    simp only [containsStarSlash, decide_eq_false_iff_not, not_or,
      Bool.not_eq_true] at hss
    obtain ⟨hp, hss'⟩ := hss
    have hpair : ¬ (c = '*' ∧ (body' ++ '*' :: '/' :: rest).head? = some '/') := by
      rintro ⟨rfl, hh⟩
      match body', hp, hh with
      | [], hp, hh => simp at hh
      | d :: body'', hp, hh =>
        have hd : d = '/' := by simpa using hh
        exact hp ⟨rfl, by simp [hd]⟩
    rw [List.cons_append, mlCommentLoop, if_neg hpair, ih hss' rest _, utf8Len_cons]
    simp [Nat.add_assoc]

/-- C10: comments are tokens in the stream, not discarded.  (1) A line
comment `//…` running to a newline or input end makes the whitespace
pass yield a `Comment` token covering exactly its text; (2) so does a
properly closed block comment `/*…*/`; (3) a token yielded by the
whitespace pass is exactly what `scan` emits; and two end-to-end lexes
showing `Comment` tokens in the output sequence with the consumer-visible
spans. -/
theorem comments_are_tokens :
    (∀ (prev : TokenKind) (body rest : List Char) (off : Nat) (tok : Option Token),
      '\n' ∉ body → (rest = [] ∨ rest.head? = some '\n') →
      whitespaceLoop prev ('/' :: '/' :: (body ++ rest)) off tok =
        (some ⟨.Comment, off, off + 2 + utf8Len body⟩, rest, off + 2 + utf8Len body)) ∧
    (∀ (prev : TokenKind) (body rest : List Char) (off : Nat) (tok : Option Token),
      containsStarSlash body = false →
      whitespaceLoop prev ('/' :: '*' :: (body ++ '*' :: '/' :: rest)) off tok =
        (some ⟨.Comment, off, off + 4 + utf8Len body⟩, rest, off + 4 + utf8Len body)) ∧
    (∀ (xt : XidTables) (s : LexState) (t : Token) (rest : List Char) (off : Nat),
      whitespace s = (some t, rest, off) → scan xt s = (t, ⟨rest, off, t.kind⟩)) ∧
    tokensOfStr "x //c" =
      [⟨.Identifier, 0, 1⟩, ⟨.Comment, 2, 5⟩, ⟨.Eof, 5, 5⟩] ∧
    tokensOfStr "/*a*/x" =
      [⟨.Comment, 0, 5⟩, ⟨.Identifier, 5, 6⟩, ⟨.Eof, 6, 6⟩] := by
  refine ⟨?_, ?_, ?_, by decide, by decide⟩
  · intro prev body rest off tok hmem hrest
    rw [whitespaceLoop, if_neg (by decide), if_neg (by decide),
      if_pos (⟨rfl, by simp⟩ :
        ('/' : Char) = '/' ∧ ('/' :: (body ++ rest)).head? = some '/')]
    have hmem2 : '\n' ∉ ('/' :: '/' :: body) := by
      simp only [List.mem_cons]
      rintro (h | h | h)
      · exact absurd h (by decide)
      · exact absurd h (by decide)
      · exact hmem h
    have hloop := lineCommentLoop_run ('/' :: '/' :: body) hmem2 rest off hrest
    rw [List.cons_append, List.cons_append] at hloop
    have hsz : ('/' : Char).utf8Size = 1 := by decide
    simp only [line_comment, hloop, utf8Len_cons, hsz, Prod.mk.injEq, Token.mk.injEq,
      SourceSpan.mk.injEq, Option.some.injEq, true_and, and_true]
    omega
  · intro prev body rest off tok hss
    rw [whitespaceLoop, if_neg (by decide), if_neg (by decide),
      if_neg (by simp :
        ¬ (('/' : Char) = '/' ∧ ('*' :: (body ++ '*' :: '/' :: rest)).head? = some '/')),
      if_pos (⟨rfl, by simp⟩ :
        ('/' : Char) = '/' ∧ ('*' :: (body ++ '*' :: '/' :: rest)).head? = some '*')]
    have hml : multi_line_comment ('/' :: '*' :: (body ++ '*' :: '/' :: rest)) off =
        (⟨.Comment, off, off + 4 + utf8Len body⟩, rest, off + 4 + utf8Len body) := by
      have h1 : ('/' : Char).utf8Size = 1 := by decide
      have h2 : ('*' : Char).utf8Size = 1 := by decide
      simp only [multi_line_comment, mlCommentLoop_to_close body hss rest _, h1, h2,
        Prod.mk.injEq, Token.mk.injEq, SourceSpan.mk.injEq, true_and, and_true]
      omega
    simp [hml]
  · intro xt s t rest off h
    simp [scan, h]

theorem comments_are_tokens_witness :
    whitespaceLoop .Error ('/' :: '/' :: (['c'] ++ [])) 0 none =
      (some ⟨.Comment, 0, 0 + 2 + utf8Len ['c']⟩, [], 0 + 2 + utf8Len ['c']) :=
  comments_are_tokens.1 .Error ['c'] [] 0 none (by decide) (Or.inl rfl)

/-! ## C5 — error recovery and Eof contract

Progress lemmas: every scanning loop consumes characters it traverses,
`scan` strictly shrinks the remaining input unless it reports `Eof`, and
therefore the fuel chosen in `tokensOf` always suffices and the stream
ends in exactly one `Eof`. -/

theorem lineCommentLoop_len_le (l : List Char) (off : Nat) :
    (lineCommentLoop l off).1.length ≤ l.length := by
  induction l generalizing off with
  | nil => simp [lineCommentLoop]
  | cons c rest ih =>
    rw [lineCommentLoop]
    by_cases hc : c = '\n'
    · simp [hc]
    · simp only [if_neg hc]
      exact Nat.le_succ_of_le (ih _)

theorem mlCommentLoop_len_le (l : List Char) (off : Nat) :
    (mlCommentLoop l off).1.length ≤ l.length := by
  induction l generalizing off with
  | nil => simp [mlCommentLoop]
  | cons c rest ih =>
    rw [mlCommentLoop]
    by_cases hc : c = '*' ∧ rest.head? = some '/'
    · simp [hc]
    · simp only [if_neg hc]
      exact Nat.le_succ_of_le (ih _)

theorem stringLoop_len_le (l : List Char) (off : Nat) :
    (stringLoop l off).1.length ≤ l.length := by
  induction l generalizing off with
  | nil => simp [stringLoop]
  | cons c rest ih =>
    rw [stringLoop]
    by_cases hc : c = '"'
    · simp [hc]
    · simp only [if_neg hc]
      exact Nat.le_succ_of_le (ih _)

theorem numberLoop_len_le (l : List Char) (off : Nat) :
    (numberLoop l off).1.length ≤ l.length := by
  induction l generalizing off with
  | nil => simp [numberLoop]
  | cons c rest ih =>
    rw [numberLoop]
    by_cases hc : ¬ rustIsAsciiDigit c
    · simp [hc]
    · simp only [if_neg hc]
      exact Nat.le_succ_of_le (ih _)

theorem nameLoop_len_le (xt : XidTables) (l : List Char) :
    ∀ (off : Nat) (acc : List Nat) (cand : Bool),
      (nameLoop xt l off acc cand).1.length ≤ l.length := by
  induction l with
  | nil => intro off acc cand; simp [nameLoop]
  | cons c rest ih =>
    intro off acc cand
    rw [nameLoop]
    by_cases h1 : cand = true ∧ acc.length < MAX_KEYWORD_LEN ∧ rustIsAsciiLower c = true
    · simp only [if_pos h1]
      exact Nat.le_succ_of_le (ih _ _ _)
    · simp only [if_neg h1]
      by_cases h2 : is_ident2 xt c
      · simp only [if_pos h2]
        exact Nat.le_succ_of_le (ih _ _ _)
      · simp [if_neg h2]

theorem stringTail_len_le (l : List Char) (off : Nat) :
    (stringTail l off).2.1.length ≤ l.length := by
  rw [stringTail]
  have h := stringLoop_len_le l off
  match hres : (stringLoop l off).1 with
  | [] => simp
  | c :: rest =>
    rw [hres] at h
    simp only [List.length_cons] at h
    simp only []
    omega

theorem name_len_le (xt : XidTables) (first : Char) (l : List Char) (off : Nat) :
    (name xt first l off).2.1.length ≤ l.length := by
  rw [name]
  exact nameLoop_len_le xt l off _ _

theorem match1_len_le (c : Char) (a b : TokenKind) (l : List Char) (off : Nat) :
    (match1 c a b l off).2.1.length ≤ l.length := by
  match l with
  | [] => simp [match1]
  | x :: rest =>
    rw [match1]
    by_cases hx : x = c <;> simp [hx]

theorem match2_len_le (c1 : Char) (a : TokenKind) (c2 : Char) (b d : TokenKind)
    (l : List Char) (off : Nat) :
    (match2 c1 a c2 b d l off).2.1.length ≤ l.length := by
  match l with
  | [] => simp [match2]
  | x :: rest =>
    rw [match2]
    repeat' split
    · exact Nat.le_succ _
    · exact Nat.le_succ _
    · exact Nat.le_refl _

theorem multi_line_comment_len_le (src : List Char) (off : Nat) :
    (multi_line_comment src off).2.1.length + 1 ≤ src.length ∨
      (multi_line_comment src off).2.1 = [] := by
  match src with
  | [] => right; simp [multi_line_comment, mlCommentLoop]
  | a :: [] => right; simp [multi_line_comment, mlCommentLoop]
  | a :: b :: rest =>
    have h := mlCommentLoop_len_le rest (off + a.utf8Size + b.utf8Size)
    match hres : (mlCommentLoop rest (off + a.utf8Size + b.utf8Size)).1 with
    | [] => right; simp [multi_line_comment, hres]
    | x :: [] => right; simp [multi_line_comment, hres]
    | x :: y :: rest' =>
      left
      rw [hres] at h
      simp only [multi_line_comment, hres, List.length_cons] at h ⊢
      omega

theorem line_comment_strict {c : Char} (rest : List Char) (off : Nat)
    (hc : ¬ c = '\n') :
    (line_comment (c :: rest) off).2.1.length < (c :: rest).length := by
  rw [line_comment]
  simp only []
  rw [lineCommentLoop, if_neg hc]
  have := lineCommentLoop_len_le rest (off + c.utf8Size)
  simp only [List.length_cons]
  omega

/-- The whitespace loop either does nothing at all or strictly consumes
input. -/
theorem whitespaceLoop_progress (prev : TokenKind) :
    ∀ (l : List Char) (off : Nat) (tok : Option Token),
      whitespaceLoop prev l off tok = (tok, l, off) ∨
        (whitespaceLoop prev l off tok).2.1.length < l.length := by
  intro l
  induction l with
  | nil => intro off tok; left; rw [whitespaceLoop]
  | cons c rest ih =>
    intro off tok
    rw [whitespaceLoop]
    by_cases hc : c = '\n'
    · rw [if_pos hc]
      right
      rcases ih (off + c.utf8Size) (if should_terminate_expr prev then
          some ⟨.Semicolon, off, off⟩ else tok) with h | h
      · rw [h]; simp
      · exact Nat.lt_succ_of_lt h
    · rw [if_neg hc]
      by_cases hws : rustIsWhitespace c
      · rw [if_pos hws]
        right
        rcases ih (off + c.utf8Size) tok with h | h
        · rw [h]; simp
        · exact Nat.lt_succ_of_lt h
      · rw [if_neg hws]
        by_cases h2 : c = '/' ∧ rest.head? = some '/'
        · rw [if_pos h2]
          right
          exact line_comment_strict rest off hc
        · rw [if_neg h2]
          by_cases h3 : c = '/' ∧ rest.head? = some '*'
          · rw [if_pos h3]
            right
            rcases multi_line_comment_len_le (c :: rest) off with h | h
            · simp only [List.length_cons] at h ⊢
              omega
            · rw [h]
              simp
          · rw [if_neg h3]
            left
            rfl

theorem scanDispatch_len_le (xt : XidTables) (c : Char) (rest1 : List Char) (off1 : Nat) :
    (scanDispatch xt c rest1 off1).2.1.length ≤ rest1.length := by
  rw [scanDispatch]
  by_cases h1 : is_ident1 xt c
  · rw [if_pos h1]
    exact name_len_le xt c rest1 off1
  rw [if_neg h1]
  by_cases h2 : rustIsAsciiDigit c
  · rw [if_pos h2]
    exact numberLoop_len_le rest1 off1
  rw [if_neg h2]
  by_cases h3 : c = '('
  · rw [if_pos h3]
  rw [if_neg h3]
  by_cases h4 : c = ')'
  · rw [if_pos h4]
  rw [if_neg h4]
  by_cases h5 : c = '{'
  · rw [if_pos h5]
  rw [if_neg h5]
  by_cases h6 : c = '}'
  · rw [if_pos h6]
  rw [if_neg h6]
  by_cases h7 : c = '['
  · rw [if_pos h7]
  rw [if_neg h7]
  by_cases h8 : c = ']'
  · rw [if_pos h8]
  rw [if_neg h8]
  by_cases h9 : c = '+'
  · rw [if_pos h9]
    exact match2_len_le _ _ _ _ _ _ _
  rw [if_neg h9]
  by_cases h10 : c = '-'
  · rw [if_pos h10]
    exact match2_len_le _ _ _ _ _ _ _
  rw [if_neg h10]
  by_cases h11 : c = '*'
  · rw [if_pos h11]
    exact match1_len_le _ _ _ _ _
  rw [if_neg h11]
  by_cases h12 : c = '/'
  · rw [if_pos h12]
    exact match1_len_le _ _ _ _ _
  rw [if_neg h12]
  by_cases h13 : c = '%'
  · rw [if_pos h13]
    exact match1_len_le _ _ _ _ _
  rw [if_neg h13]
  by_cases h14 : c = '&'
  · rw [if_pos h14]
    exact match2_len_le _ _ _ _ _ _ _
  rw [if_neg h14]
  by_cases h15 : c = '|'
  · rw [if_pos h15]
    exact match2_len_le _ _ _ _ _ _ _
  rw [if_neg h15]
  by_cases h16 : c = '^'
  · rw [if_pos h16]
    exact match1_len_le _ _ _ _ _
  rw [if_neg h16]
  by_cases h17 : c = '<'
  · rw [if_pos h17]
    by_cases hla : rest1.head? = some '<'
    · rw [if_pos hla]
      exact le_trans (match1_len_le _ _ _ _ _) (by cases rest1 <;> simp)
    · rw [if_neg hla]
      exact match1_len_le _ _ _ _ _
  rw [if_neg h17]
  by_cases h18 : c = '>'
  · rw [if_pos h18]
    by_cases hla : rest1.head? = some '>'
    · rw [if_pos hla]
      exact le_trans (match1_len_le _ _ _ _ _) (by cases rest1 <;> simp)
    · rw [if_neg hla]
      exact match1_len_le _ _ _ _ _
  rw [if_neg h18]
  by_cases h19 : c = '='
  · rw [if_pos h19]
    exact match1_len_le _ _ _ _ _
  rw [if_neg h19]
  by_cases h20 : c = '!'
  · rw [if_pos h20]
    exact match1_len_le _ _ _ _ _
  rw [if_neg h20]
  by_cases h21 : c = '~'
  · rw [if_pos h21]
  rw [if_neg h21]
  by_cases h22 : c = '.'
  · rw [if_pos h22]
  rw [if_neg h22]
  by_cases h23 : c = ':'
  · rw [if_pos h23]
  rw [if_neg h23]
  by_cases h24 : c = ','
  · rw [if_pos h24]
  rw [if_neg h24]
  by_cases h25 : c = ';'
  · rw [if_pos h25]
  rw [if_neg h25]
  by_cases h26 : c = '\"'
  · rw [if_pos h26]
    exact stringTail_len_le _ _
  rw [if_neg h26]

/-- `scan` yields `Eof` or strictly shrinks the remaining input. -/
theorem scan_progress (xt : XidTables) (s : LexState) :
    (scan xt s).1.kind = .Eof ∨ (scan xt s).2.src.length < s.src.length := by
  rcases hw : whitespace s with ⟨tok, rest, off⟩
  have hprog := whitespaceLoop_progress s.prev s.src s.off none
  rw [show whitespaceLoop s.prev s.src s.off none = whitespace s from rfl, hw] at hprog
  match tok with
  | some t =>
    right
    rcases hprog with h | h
    · exact absurd (congrArg Prod.fst h) (by simp)
    · simp only [scan, hw]
      simpa using h
  | none =>
    have hrest : rest = s.src ∨ rest.length < s.src.length := by
      rcases hprog with h | h
      · left; exact (congrArg (fun p => p.2.1) h)
      · right; simpa using h
    match hr : rest with
    | [] => left; simp [scan, hw]
    | c :: rest1 =>
      right
      simp only [scan, hw]
      have hd := scanDispatch_len_le xt c rest1 (off + c.utf8Size)
      rcases hrest with h | h
      · rw [← h]
        simp only [List.length_cons]
        omega
      · simp only [List.length_cons] at h
        omega

/-- With fuel exceeding the input length, the token stream is a possibly
empty run of non-`Eof` tokens followed by exactly one final `Eof`. -/
theorem tokensFromFuel_eof (xt : XidTables) :
    ∀ (fuel : Nat) (s : LexState), s.src.length < fuel →
      ∃ ts te, tokensFromFuel xt fuel s = ts ++ [te] ∧ te.kind = .Eof ∧
        ∀ t ∈ ts, t.kind ≠ .Eof := by
  intro fuel
  induction fuel with
  | zero => intro s h; omega
  | succ fuel ih =>
    intro s hs
    rw [tokensFromFuel]
    by_cases he : (scan xt s).1.kind = .Eof
    · exact ⟨[], (scan xt s).1, by simp [he], he, by simp⟩
    · rcases scan_progress xt s with h | h
      · exact absurd h he
      · obtain ⟨ts, te, heq, hte, hne⟩ := ih (scan xt s).2 (by omega)
        refine ⟨(scan xt s).1 :: ts, te, ?_, hte, ?_⟩
        · simp [he, heq]
        · intro t ht
          rcases List.mem_cons.mp ht with rfl | ht
          · exact he
          · exact hne t ht

/-- An unterminated string literal (no closing quote in the remaining
input) consumes everything and produces the `Error` kind. -/
theorem stringLoop_no_quote :
    ∀ (l : List Char) (off : Nat), '"' ∉ l → stringLoop l off = ([], off + utf8Len l) := by
  intro l
  induction l with
  | nil => intro off _; simp [stringLoop, utf8Len]
  | cons c rest ih =>
    intro off hmem
    have hc : ¬ c = '"' := fun h => hmem (h ▸ List.mem_cons_self c rest)
    rw [stringLoop, if_neg hc, ih _ (fun h => hmem (List.mem_cons_of_mem c h)),
      utf8Len_cons]
    simp [Nat.add_assoc]

theorem stringTail_unterminated (l : List Char) (off : Nat) (hmem : '"' ∉ l) :
    stringTail l off = (.Error, [], off + utf8Len l) := by
  rw [stringTail, stringLoop_no_quote l off hmem]

/-- An unterminated block comment (no `*/` in the remaining input)
consumes everything and produces an `Error` token spanning it. -/
theorem mlCommentLoop_no_close :
    ∀ (l : List Char) (off : Nat), containsStarSlash l = false →
      mlCommentLoop l off = ([], off + utf8Len l) := by
  intro l
  induction l with
  | nil => intro off _; simp [mlCommentLoop, utf8Len]
  | cons c rest ih =>
    intro off hss
    simp only [containsStarSlash, decide_eq_false_iff_not, not_or,
      Bool.not_eq_true] at hss
    obtain ⟨hp, hss'⟩ := hss
    rw [mlCommentLoop, if_neg hp, ih _ hss', utf8Len_cons]
    simp [Nat.add_assoc]

theorem multi_line_comment_unterminated (body : List Char) (off : Nat)
    (hss : containsStarSlash body = false) :
    multi_line_comment ('/' :: '*' :: body) off =
      (⟨.Error, off, off + 2 + utf8Len body⟩, [], off + 2 + utf8Len body) := by
  have h1 : ('/' : Char).utf8Size = 1 := by decide
  have h2 : ('*' : Char).utf8Size = 1 := by decide
  simp only [multi_line_comment, mlCommentLoop_no_close body _ hss, h1, h2,
    Prod.mk.injEq, Token.mk.injEq, SourceSpan.mk.injEq, true_and, and_true]

/-- An unrecognized character (not whitespace, not an identifier start,
not a digit, and none of the operator/punctuation/quote characters)
yields exactly one `Error` token of that character's width, and scanning
continues behind it. -/
theorem scan_unrecognized (xt : XidTables) (c : Char) (rest : List Char)
    (off : Nat) (prev : TokenKind)
    (hws : rustIsWhitespace c = false)
    (hid : is_ident1 xt c = false)
    (hdig : rustIsAsciiDigit c = false)
    (hnp : c ∉ ['(', ')', '{', '}', '[', ']', '+', '-', '*', '/', '%', '&', '|',
      '^', '<', '>', '=', '!', '~', '.', ':', ',', ';', '"']) :
    scan xt ⟨c :: rest, off, prev⟩ =
      (⟨.Error, off, off + c.utf8Size⟩, ⟨rest, off + c.utf8Size, .Error⟩) := by
  simp only [List.mem_cons, List.not_mem_nil, or_false, not_or] at hnp
  obtain ⟨n1, n2, n3, n4, n5, n6, n7, n8, n9, n10, n11, n12, n13, n14, n15, n16,
    n17, n18, n19, n20, n21, n22, n23, n24⟩ := hnp
  have hnl : ¬ c = '\n' := fun h => by
    rw [h] at hws
    exact absurd hws (by decide)
  have hws' : ¬ rustIsWhitespace c = true := by simp [hws]
  have hcm1 : ¬ (c = '/' ∧ rest.head? = some '/') := fun h => n10 h.1
  have hcm2 : ¬ (c = '/' ∧ rest.head? = some '*') := fun h => n10 h.1
  have hw : whitespace ⟨c :: rest, off, prev⟩ = (none, c :: rest, off) := by
    rw [whitespace]
    rw [whitespaceLoop, if_neg hnl, if_neg hws', if_neg hcm1, if_neg hcm2]
  simp only [scan, hw]
  have hdisp : scanDispatch xt c rest (off + c.utf8Size) =
      (.Error, rest, off + c.utf8Size) := by
    rw [scanDispatch]
    rw [if_neg (by simp [hid] : ¬ is_ident1 xt c = true)]
    rw [if_neg (by simp [hdig] : ¬ rustIsAsciiDigit c = true)]
    rw [if_neg n1]
    rw [if_neg n2]
    rw [if_neg n3]
    rw [if_neg n4]
    rw [if_neg n5]
    rw [if_neg n6]
    rw [if_neg n7]
    rw [if_neg n8]
    rw [if_neg n9]
    rw [if_neg n10]
    rw [if_neg n11]
    rw [if_neg n12]
    rw [if_neg n13]
    rw [if_neg n14]
    rw [if_neg n15]
    rw [if_neg n16]
    rw [if_neg n17]
    rw [if_neg n18]
    rw [if_neg n19]
    rw [if_neg n20]
    rw [if_neg n21]
    rw [if_neg n22]
    rw [if_neg n23]
    rw [if_neg n24]
  rw [hdisp]

/-- C5: for every input (and any identifier tables) the token sequence
is finite and consists of a run of non-`Eof` tokens followed by exactly
one final `Eof`; each diagnosable failure — unterminated string,
unterminated block comment, unrecognized character — yields exactly one
`Error` token covering the offending text, and scanning continues after
it (concretely: `"@1"` still lexes the `1` after the `Error`). -/
theorem lexical_errors_and_eof_contract :
    (∀ (xt : XidTables) (src : List Char),
      ∃ ts te, tokensOf xt src = ts ++ [te] ∧ te.kind = .Eof ∧
        ∀ t ∈ ts, t.kind ≠ .Eof) ∧
    (∀ (l : List Char) (off : Nat), '"' ∉ l →
      stringTail l off = (.Error, [], off + utf8Len l)) ∧
    (∀ (body : List Char) (off : Nat), containsStarSlash body = false →
      multi_line_comment ('/' :: '*' :: body) off =
        (⟨.Error, off, off + 2 + utf8Len body⟩, [], off + 2 + utf8Len body)) ∧
    (∀ (xt : XidTables) (c : Char) (rest : List Char) (off : Nat) (prev : TokenKind),
      rustIsWhitespace c = false → is_ident1 xt c = false →
      rustIsAsciiDigit c = false →
      c ∉ ['(', ')', '{', '}', '[', ']', '+', '-', '*', '/', '%', '&', '|',
        '^', '<', '>', '=', '!', '~', '.', ':', ',', ';', '"'] →
      scan xt ⟨c :: rest, off, prev⟩ =
        (⟨.Error, off, off + c.utf8Size⟩, ⟨rest, off + c.utf8Size, .Error⟩)) ∧
    tokensOfStr "\"ab" = [⟨.Error, 0, 3⟩, ⟨.Eof, 3, 3⟩] ∧
    tokensOfStr "/*a" = [⟨.Error, 0, 3⟩, ⟨.Eof, 3, 3⟩] ∧
    tokensOfStr "@1" = [⟨.Error, 0, 1⟩, ⟨.Number, 1, 2⟩, ⟨.Eof, 2, 2⟩] := by
  refine ⟨?_, stringTail_unterminated, multi_line_comment_unterminated,
    scan_unrecognized, by decide, by decide, by decide⟩
  intro xt src
  exact tokensFromFuel_eof xt (src.length + 1) ⟨src, 0, .Error⟩
    (Nat.lt_succ_self _)

/-- Witness for C5 at the concrete unterminated string body `"ab"` (no
closing quote): the `Error` kind covering both remaining bytes. -/
theorem lexical_errors_and_eof_contract_witness :
    stringTail (String.toList "ab") 1 =
      (.Error, [], 1 + utf8Len (String.toList "ab")) :=
  lexical_errors_and_eof_contract.2.1 (String.toList "ab") 1 (by decide)


/-! ## C9 — u32 source-length bound and offset integrity

The cursor invariant: every scanning step preserves
`offset + utf8Len remaining`, so every offset the lexer ever writes into
a span is bounded by the total byte length of the source — which the
construction-time assertion bounds by `u32::MAX`, hence no truncation. -/

theorem lineCommentLoop_inv (l : List Char) (off : Nat) :
    (lineCommentLoop l off).2 + utf8Len (lineCommentLoop l off).1 = off + utf8Len l := by
  induction l generalizing off with
  | nil => simp [lineCommentLoop]
  | cons c rest ih =>
    rw [lineCommentLoop]
    by_cases hc : c = '\n'
    · simp [hc]
    · simp only [if_neg hc]
      rw [ih, utf8Len_cons]
      omega

theorem mlCommentLoop_inv (l : List Char) (off : Nat) :
    (mlCommentLoop l off).2 + utf8Len (mlCommentLoop l off).1 = off + utf8Len l := by
  induction l generalizing off with
  | nil => simp [mlCommentLoop]
  | cons c rest ih =>
    rw [mlCommentLoop]
    by_cases hc : c = '*' ∧ rest.head? = some '/'
    · simp [hc]
    · simp only [if_neg hc]
      rw [ih, utf8Len_cons]
      omega

theorem stringLoop_inv (l : List Char) (off : Nat) :
    (stringLoop l off).2 + utf8Len (stringLoop l off).1 = off + utf8Len l := by
  induction l generalizing off with
  | nil => simp [stringLoop]
  | cons c rest ih =>
    rw [stringLoop]
    by_cases hc : c = '"'
    · simp [hc]
    · simp only [if_neg hc]
      rw [ih, utf8Len_cons]
      omega

theorem numberLoop_inv (l : List Char) (off : Nat) :
    (numberLoop l off).2 + utf8Len (numberLoop l off).1 = off + utf8Len l := by
  induction l generalizing off with
  | nil => simp [numberLoop]
  | cons c rest ih =>
    rw [numberLoop]
    by_cases hc : ¬ rustIsAsciiDigit c
    · simp [hc]
    · simp only [if_neg hc]
      rw [ih, utf8Len_cons]
      omega

theorem nameLoop_inv (xt : XidTables) (l : List Char) :
    ∀ (off : Nat) (acc : List Nat) (cand : Bool),
      (nameLoop xt l off acc cand).2.1 + utf8Len (nameLoop xt l off acc cand).1 =
        off + utf8Len l := by
  induction l with
  | nil => intro off acc cand; simp [nameLoop]
  | cons c rest ih =>
    intro off acc cand
    rw [nameLoop]
    by_cases h1 : cand = true ∧ acc.length < MAX_KEYWORD_LEN ∧ rustIsAsciiLower c = true
    · simp only [if_pos h1]
      rw [ih, utf8Len_cons]
      omega
    · simp only [if_neg h1]
      by_cases h2 : is_ident2 xt c
      · simp only [if_pos h2]
        rw [ih, utf8Len_cons]
        omega
      · simp [if_neg h2]

theorem name_inv (xt : XidTables) (first : Char) (l : List Char) (off : Nat) :
    (name xt first l off).2.2 + utf8Len (name xt first l off).2.1 = off + utf8Len l := by
  rw [name]
  exact nameLoop_inv xt l off _ _

theorem match1_inv (c : Char) (a b : TokenKind) (l : List Char) (off : Nat) :
    (match1 c a b l off).2.2 + utf8Len (match1 c a b l off).2.1 = off + utf8Len l := by
  match l with
  | [] => simp [match1]
  | x :: rest =>
    rw [match1]
    by_cases hx : x = c
    · simp only [if_pos hx]
      rw [utf8Len_cons]
      omega
    · simp [if_neg hx]

theorem match2_inv (c1 : Char) (a : TokenKind) (c2 : Char) (b d : TokenKind)
    (l : List Char) (off : Nat) :
    (match2 c1 a c2 b d l off).2.2 + utf8Len (match2 c1 a c2 b d l off).2.1 =
      off + utf8Len l := by
  match l with
  | [] => simp [match2]
  | x :: rest =>
    rw [match2]
    repeat' split
    · show off + x.utf8Size + utf8Len rest = off + utf8Len (x :: rest)
      rw [utf8Len_cons]; omega
    · show off + x.utf8Size + utf8Len rest = off + utf8Len (x :: rest)
      rw [utf8Len_cons]; omega
    · rfl

theorem stringTail_inv (l : List Char) (off : Nat) :
    (stringTail l off).2.2 + utf8Len (stringTail l off).2.1 = off + utf8Len l := by
  rw [stringTail]
  have h := stringLoop_inv l off
  match hres : (stringLoop l off).1 with
  | [] =>
    rw [hres] at h
    simpa [utf8Len] using h
  | c :: rest =>
    rw [hres] at h
    rw [utf8Len_cons] at h
    simp only [utf8Len] at h ⊢
    omega

theorem multi_line_comment_inv (src : List Char) (off : Nat) :
    (multi_line_comment src off).2.2 + utf8Len (multi_line_comment src off).2.1 =
      off + utf8Len src ∧
    (multi_line_comment src off).1.span.start = off ∧
    (multi_line_comment src off).1.span.stop = (multi_line_comment src off).2.2 := by
  match src with
  | [] =>
    refine ⟨?_, ?_, ?_⟩ <;> simp [multi_line_comment, mlCommentLoop, utf8Len]
  | a :: [] =>
    refine ⟨?_, ?_, ?_⟩ <;> simp [multi_line_comment, mlCommentLoop, utf8Len_cons, utf8Len]
  | a :: b :: rest =>
    have h := mlCommentLoop_inv rest (off + a.utf8Size + b.utf8Size)
    match hres : (mlCommentLoop rest (off + a.utf8Size + b.utf8Size)).1 with
    | [] =>
      rw [hres] at h
      simp only [utf8Len_nil, Nat.add_zero] at h
      refine ⟨?_, ?_, ?_⟩
      · simp only [multi_line_comment, hres, utf8Len_nil, Nat.add_zero, utf8Len_cons]
        omega
      · simp only [multi_line_comment, hres]
      · simp only [multi_line_comment, hres]
    | x :: [] =>
      rw [hres] at h
      rw [utf8Len_cons] at h
      simp only [utf8Len_nil, Nat.add_zero] at h
      refine ⟨?_, ?_, ?_⟩
      · simp only [multi_line_comment, hres, utf8Len_nil, Nat.add_zero, utf8Len_cons]
        omega
      · simp only [multi_line_comment, hres]
      · simp only [multi_line_comment, hres]
    | x :: y :: rest' =>
      rw [hres] at h
      rw [utf8Len_cons, utf8Len_cons] at h
      refine ⟨?_, ?_, ?_⟩
      · simp only [multi_line_comment, hres, utf8Len_cons]
        omega
      · simp only [multi_line_comment, hres]
      · simp only [multi_line_comment, hres]

theorem line_comment_inv (src : List Char) (off : Nat) :
    (line_comment src off).2.2 + utf8Len (line_comment src off).2.1 =
      off + utf8Len src ∧
    (line_comment src off).1.span.start = off ∧
    (line_comment src off).1.span.stop = (line_comment src off).2.2 := by
  refine ⟨?_, rfl, rfl⟩
  rw [line_comment]
  exact lineCommentLoop_inv src off

/-- The whitespace pass preserves `offset + utf8Len remaining`. -/
theorem whitespaceLoop_off_inv (prev : TokenKind) :
    ∀ (l : List Char) (off : Nat) (tok : Option Token),
      (whitespaceLoop prev l off tok).2.2 +
          utf8Len (whitespaceLoop prev l off tok).2.1 = off + utf8Len l := by
  intro l
  induction l with
  | nil => intro off tok; simp [whitespaceLoop]
  | cons c rest ih =>
    intro off tok
    rw [whitespaceLoop]
    by_cases hc : c = '\n'
    · rw [if_pos hc, ih, utf8Len_cons]; omega
    · rw [if_neg hc]
      by_cases hws : rustIsWhitespace c
      · rw [if_pos hws, ih, utf8Len_cons]; omega
      · rw [if_neg hws]
        by_cases h2 : c = '/' ∧ rest.head? = some '/'
        · rw [if_pos h2]
          exact (line_comment_inv (c :: rest) off).1
        · rw [if_neg h2]
          by_cases h3 : c = '/' ∧ rest.head? = some '*'
          · rw [if_pos h3]
            exact (multi_line_comment_inv (c :: rest) off).1
          · rw [if_neg h3]

/-- Any token the whitespace pass yields has both span endpoints bounded
by `off + utf8Len l` (provided any pending token already was). -/
theorem whitespaceLoop_tok_bound (prev : TokenKind) :
    ∀ (l : List Char) (off : Nat) (tok : Option Token) (N : Nat),
      off + utf8Len l = N →
      (∀ t₀, tok = some t₀ → t₀.span.start ≤ N ∧ t₀.span.stop ≤ N) →
      ∀ t, (whitespaceLoop prev l off tok).1 = some t →
        t.span.start ≤ N ∧ t.span.stop ≤ N := by
  intro l
  induction l with
  | nil =>
    intro off tok N _ htok t ht
    rw [whitespaceLoop] at ht
    exact htok t ht
  | cons c rest ih =>
    intro off tok N hN htok t ht
    rw [whitespaceLoop] at ht
    by_cases hc : c = '\n'
    · rw [if_pos hc] at ht
      refine ih (off + c.utf8Size) _ N ?_ ?_ t ht
      · rw [utf8Len_cons] at hN; omega
      · intro t₀ ht₀
        by_cases hterm : should_terminate_expr prev
        · rw [if_pos hterm] at ht₀
          have : t₀ = ⟨.Semicolon, off, off⟩ := by
            exact (Option.some_inj.mp ht₀).symm
          subst this
          have : off ≤ N := by rw [utf8Len_cons] at hN; omega
          exact ⟨this, this⟩
        · rw [if_neg hterm] at ht₀
          exact htok t₀ ht₀
    · rw [if_neg hc] at ht
      by_cases hws : rustIsWhitespace c
      · rw [if_pos hws] at ht
        refine ih (off + c.utf8Size) _ N ?_ htok t ht
        rw [utf8Len_cons] at hN; omega
      · rw [if_neg hws] at ht
        by_cases h2 : c = '/' ∧ rest.head? = some '/'
        · rw [if_pos h2] at ht
          have hlc := line_comment_inv (c :: rest) off
          have ht' : t = (line_comment (c :: rest) off).1 :=
            (Option.some_inj.mp ht).symm
          subst ht'
          constructor
          · rw [hlc.2.1]; omega
          · rw [hlc.2.2]
            have := hlc.1
            omega
        · rw [if_neg h2] at ht
          by_cases h3 : c = '/' ∧ rest.head? = some '*'
          · rw [if_pos h3] at ht
            have hml := multi_line_comment_inv (c :: rest) off
            have ht' : t = (multi_line_comment (c :: rest) off).1 :=
              (Option.some_inj.mp ht).symm
            subst ht'
            constructor
            · rw [hml.2.1]; omega
            · rw [hml.2.2]
              have := hml.1
              omega
          · rw [if_neg h3] at ht
            exact htok t ht

theorem scanDispatch_inv (xt : XidTables) (c : Char) (rest1 : List Char) (off1 : Nat) :
    (scanDispatch xt c rest1 off1).2.2 + utf8Len (scanDispatch xt c rest1 off1).2.1 =
      off1 + utf8Len rest1 := by
  rw [scanDispatch]
  by_cases g1 : is_ident1 xt c
  · rw [if_pos g1]
    exact name_inv xt c rest1 off1
  rw [if_neg g1]
  by_cases g2 : rustIsAsciiDigit c
  · rw [if_pos g2]
    exact numberLoop_inv rest1 off1
  rw [if_neg g2]
  by_cases g3 : c = '('
  · rw [if_pos g3]
  rw [if_neg g3]
  by_cases g4 : c = ')'
  · rw [if_pos g4]
  rw [if_neg g4]
  by_cases g5 : c = '{'
  · rw [if_pos g5]
  rw [if_neg g5]
  by_cases g6 : c = '}'
  · rw [if_pos g6]
  rw [if_neg g6]
  by_cases g7 : c = '['
  · rw [if_pos g7]
  rw [if_neg g7]
  by_cases g8 : c = ']'
  · rw [if_pos g8]
  rw [if_neg g8]
  by_cases g9 : c = '+'
  · rw [if_pos g9]
    exact match2_inv _ _ _ _ _ _ _
  rw [if_neg g9]
  by_cases g10 : c = '-'
  · rw [if_pos g10]
    exact match2_inv _ _ _ _ _ _ _
  rw [if_neg g10]
  by_cases g11 : c = '*'
  · rw [if_pos g11]
    exact match1_inv _ _ _ _ _
  rw [if_neg g11]
  by_cases g12 : c = '/'
  · rw [if_pos g12]
    exact match1_inv _ _ _ _ _
  rw [if_neg g12]
  by_cases g13 : c = '%'
  · rw [if_pos g13]
    exact match1_inv _ _ _ _ _
  rw [if_neg g13]
  by_cases g14 : c = '&'
  · rw [if_pos g14]
    exact match2_inv _ _ _ _ _ _ _
  rw [if_neg g14]
  by_cases g15 : c = '|'
  · rw [if_pos g15]
    exact match2_inv _ _ _ _ _ _ _
  rw [if_neg g15]
  by_cases g16 : c = '^'
  · rw [if_pos g16]
    exact match1_inv _ _ _ _ _
  rw [if_neg g16]
  by_cases g17 : c = '<'
  · rw [if_pos g17]
    by_cases hla : rest1.head? = some '<'
    · rw [if_pos hla]
      match rest1, hla with
      | x :: rest2, hla =>
        have hx : x = '<' := by simpa using hla
        subst hx
        rw [match1_inv, utf8Len_cons]
        have : ('<' : Char).utf8Size = 1 := by decide
        rw [this]
        simp only [List.tail_cons]
        omega
    · rw [if_neg hla]
      exact match1_inv _ _ _ _ _
  rw [if_neg g17]
  by_cases g18 : c = '>'
  · rw [if_pos g18]
    by_cases hla : rest1.head? = some '>'
    · rw [if_pos hla]
      match rest1, hla with
      | x :: rest2, hla =>
        have hx : x = '>' := by simpa using hla
        subst hx
        rw [match1_inv, utf8Len_cons]
        have : ('>' : Char).utf8Size = 1 := by decide
        rw [this]
        simp only [List.tail_cons]
        omega
    · rw [if_neg hla]
      exact match1_inv _ _ _ _ _
  rw [if_neg g18]
  by_cases g19 : c = '='
  · rw [if_pos g19]
    exact match1_inv _ _ _ _ _
  rw [if_neg g19]
  by_cases g20 : c = '!'
  · rw [if_pos g20]
    exact match1_inv _ _ _ _ _
  rw [if_neg g20]
  by_cases g21 : c = '~'
  · rw [if_pos g21]
  rw [if_neg g21]
  by_cases g22 : c = '.'
  · rw [if_pos g22]
  rw [if_neg g22]
  by_cases g23 : c = ':'
  · rw [if_pos g23]
  rw [if_neg g23]
  by_cases g24 : c = ','
  · rw [if_pos g24]
  rw [if_neg g24]
  by_cases g25 : c = ';'
  · rw [if_pos g25]
  rw [if_neg g25]
  by_cases g26 : c = '\"'
  · rw [if_pos g26]
    exact stringTail_inv _ _
  rw [if_neg g26]

/-- `scan` preserves `offset + utf8Len remaining` and produces a token
whose span endpoints are bounded by that (invariant) total. -/
theorem scan_inv (xt : XidTables) (s : LexState) (N : Nat)
    (hN : s.off + utf8Len s.src = N) :
    (scan xt s).2.off + utf8Len (scan xt s).2.src = N ∧
    (scan xt s).1.span.start ≤ N ∧ (scan xt s).1.span.stop ≤ N := by
  rcases hw : whitespace s with ⟨tok, rest, off⟩
  have hoff0 := whitespaceLoop_off_inv s.prev s.src s.off none
  rw [show whitespaceLoop s.prev s.src s.off none = whitespace s from rfl, hw] at hoff0
  have hoff : off + utf8Len rest = N := by rw [← hN]; exact hoff0
  match tok with
  | some t =>
    have hb := whitespaceLoop_tok_bound s.prev s.src s.off none N hN (by simp) t
    rw [show whitespaceLoop s.prev s.src s.off none = whitespace s from rfl, hw] at hb
    have hbt := hb rfl
    simp only [scan, hw]
    exact ⟨hoff, hbt.1, hbt.2⟩
  | none =>
    match hr : rest with
    | [] =>
      subst hr
      simp only [utf8Len_nil, Nat.add_zero] at hoff
      simp only [scan, hw]
      refine ⟨?_, ?_, ?_⟩
      · show off + utf8Len ([] : List Char) = N
        simp [utf8Len, hoff]
      · show off ≤ N
        omega
      · show off ≤ N
        omega
    | c :: rest1 =>
      subst hr
      have hd := scanDispatch_inv xt c rest1 (off + c.utf8Size)
      have hoff' : off + c.utf8Size + utf8Len rest1 = N := by
        rw [utf8Len_cons] at hoff; omega
      simp only [scan, hw]
      refine ⟨?_, ?_, ?_⟩
      · show (scanDispatch xt c rest1 (off + c.utf8Size)).2.2 +
            utf8Len (scanDispatch xt c rest1 (off + c.utf8Size)).2.1 = N
        omega
      · show off ≤ N
        have := one_le_utf8Size c
        omega
      · show (scanDispatch xt c rest1 (off + c.utf8Size)).2.2 ≤ N
        omega

/-- Every token in the stream has span endpoints bounded by the total
byte length of the source. -/
theorem tokensFromFuel_bounds (xt : XidTables) :
    ∀ (fuel : Nat) (s : LexState) (N : Nat), s.off + utf8Len s.src = N →
      ∀ t ∈ tokensFromFuel xt fuel s, t.span.start ≤ N ∧ t.span.stop ≤ N := by
  intro fuel
  induction fuel with
  | zero => intro s N _ t ht; simp [tokensFromFuel] at ht
  | succ fuel ih =>
    intro s N hN t ht
    rw [tokensFromFuel] at ht
    have hs := scan_inv xt s N hN
    by_cases he : (scan xt s).1.kind = .Eof
    · rw [if_pos he] at ht
      have : t = (scan xt s).1 := by simpa using ht
      subst this
      exact hs.2
    · rw [if_neg he] at ht
      rcases List.mem_cons.mp ht with rfl | ht
      · exact hs.2
      · exact ih (scan xt s).2 N hs.1 t ht

/-- C9: a source text whose byte length does not fit in 32 bits is
rejected by the construction-time assertion of `Lexer::new`; within the
bound, construction succeeds and every span offset the lexer ever
produces is bounded by the source byte length — hence fits in a `u32`
and is never truncated. -/
theorem lexer_u32_source_bound :
    (∀ src : List Char, (lexerNew src).isSome ↔ utf8Len src ≤ 2 ^ 32 - 1) ∧
    (∀ (src : List Char) (s0 : LexState), lexerNew src = some s0 →
      ∀ (xt : XidTables) (t : Token), t ∈ tokensFromFuel xt (src.length + 1) s0 →
        t.span.start ≤ 2 ^ 32 - 1 ∧ t.span.stop ≤ 2 ^ 32 - 1) := by
  constructor
  · intro src
    rw [lexerNew]
    by_cases h : utf8Len src ≤ 2 ^ 32 - 1 <;> simp [h]
  · intro src s0 hs0 xt t ht
    rw [lexerNew] at hs0
    by_cases h : utf8Len src ≤ 2 ^ 32 - 1
    · rw [if_pos h] at hs0
      have hs0' : s0 = ⟨src, 0, .Error⟩ := (Option.some_inj.mp hs0).symm
      subst hs0'
      have := tokensFromFuel_bounds xt (src.length + 1) ⟨src, 0, .Error⟩
        (utf8Len src) (by simp) t ht
      omega
    · rw [if_neg h] at hs0
      exact absurd hs0 (by simp)

/-- Witness for C9 at the one-byte source `"x"`: construction succeeds
and the produced `Identifier` token's offsets fit the `u32` bound. -/
theorem lexer_u32_source_bound_witness :
    (⟨.Identifier, 0, 1⟩ : Token).span.start ≤ 2 ^ 32 - 1 ∧
    (⟨.Identifier, 0, 1⟩ : Token).span.stop ≤ 2 ^ 32 - 1 :=
  lexer_u32_source_bound.2 (String.toList "x") ⟨String.toList "x", 0, .Error⟩
    (by decide) asciiXid ⟨.Identifier, 0, 1⟩ (by decide)


end Serq
